import Mathlib

/-!
Verification of the commit-history graph subsystem of the `gx` command-line
tool.  The Rust sources are embedded shallowly: pure functions become Lean
functions, the row-by-row mutable lane table of the renderer becomes explicit
state passing, fallible code returns `Except`/`Option`, and Rust `String`s are
modelled as `String`/`List Char`.
-/

namespace Gx

/-! ### Lane-graph renderer, from src/git/log.rs (`build_graph`)

Commit ids (`git2::Oid`) are opaque identifiers; we model them as `Nat`.
A row of the rendered graph is modelled as a `List Char`.
-/

abbrev Oid := Nat

/-- Rust: `lanes.iter().enumerate().filter_map(|(i, l)| if *l == Some(oid) { Some(i) } else { None }).collect()` —
all lane slots currently waiting for this commit. -/
def matchingLanes (lanes : List (Option Oid)) (oid : Oid) : List Nat :=
  lanes.enum.filterMap (fun p => if p.2 = some oid then some p.1 else none)

/-- Rust lines 118–126: the commit appears in the first matching lane, or the
first free (`None`) slot (which is then occupied), or a freshly pushed slot.
Returns the chosen index together with the (possibly mutated) lane vector. -/
def selectCommitLane (lanes : List (Option Oid)) (oid : Oid) : Nat × List (Option Oid) :=
  match (matchingLanes lanes oid).head? with
  | some first => (first, lanes)
  | none =>
    match lanes.findIdx? (fun l => l.isNone) with
    | some free => (free, lanes.set free (some oid))
    | none => (lanes.length, lanes ++ [some oid])

/-- Rust lines 129–133: all matching lanes other than the commit lane close
(merge into this commit) on this row. -/
def closingLanes (matching : List Nat) (commitLane : Nat) : List Nat :=
  matching.filter (fun i => i ≠ commitLane)

/-- Rust lines 137–146: for a merge commit, each parent beyond the first that
is not already tracked in some lane gets a brand-new lane position appended
after all currently known lanes (`lanes.len() + new_branches.len()`). -/
def newBranchesOf (lanes : List (Option Oid)) (parents : List Oid) : List (Nat × Oid) :=
  if parents.length > 1 then
    (parents.drop 1).foldl
      (fun acc p =>
        if lanes.contains (some p) then acc
        else acc ++ [(lanes.length + acc.length, p)])
      []
  else []

/-- Rust lines 149–151: `lanes.len().max(new_branches.iter().map(|(p, _)| p + 1).max().unwrap_or(0))`.
For `Nat`, `iter().max().unwrap_or(0)` equals a right fold with `max` and base `0`. -/
def rowWidth (lanes : List (Option Oid)) (nb : List (Nat × Oid)) : Nat :=
  max lanes.length ((nb.map (fun q => q.1 + 1)).foldr max 0)

/-- Rust lines 154–171: the character printed in column `i` of the current row. -/
def laneChar (lanes : List (Option Oid)) (commitLane : Nat) (closing : List Nat)
    (nb : List (Nat × Oid)) (i : Nat) : Char :=
  if i = commitLane then '*'
  else if closing.contains i then '/'
  else if nb.any (fun q => q.1 = i) then '\\'
  else if (lanes.getD i none).isSome then '|'
  else ' '

/-- Rust `str::trim_end` on the built row (line 173), on the char level:
drop trailing whitespace characters. -/
def trimEndChars (l : List Char) : List Char :=
  (l.reverse.dropWhile Char.isWhitespace).reverse

/-- Rust lines 177–181: clear every closing lane back to `None`
(guarded by `i < lanes.len()` as in the source). -/
def clearClosing (closing : List Nat) (lanes : List (Option Oid)) : List (Option Oid) :=
  closing.foldl (fun ls i => if i < ls.length then ls.set i none else ls) lanes

/-- Rust lines 192–195: `while lanes.len() <= *pos { lanes.push(None); }` —
pad the lane vector with `None` up to length `n`. -/
def padTo (lanes : List (Option Oid)) (n : Nat) : List (Option Oid) :=
  lanes ++ List.replicate (n - lanes.length) none

/-- Rust lines 176–196, the lane-table update before compaction:
clear closing lanes, replace the commit lane by its first parent (or `None`
for a root), then insert the new merge lanes at their recorded positions. -/
def preCompactStep (lanes1 : List (Option Oid)) (commitLane : Nat) (closing : List Nat)
    (parents : List Oid) (nb : List (Nat × Oid)) : List (Option Oid) :=
  let lanes2 := clearClosing closing lanes1
  let lanes3 :=
    match parents with
    | [] => lanes2.set commitLane none
    | p :: _ => lanes2.set commitLane (some p)
  nb.foldl (fun ls q => (padTo ls (q.1 + 1)).set q.1 (some q.2)) lanes3

/-- Rust line 199: `lanes = lanes.into_iter().flatten().map(Some).collect()` —
drop all `None` slots and shift the remaining entries toward the front. -/
def compactLanes (lanes : List (Option Oid)) : List (Option Oid) :=
  (lanes.filterMap id).map some

/-- One iteration of the `for entry in entries` loop of `build_graph`
(lines 106–200): produce the rendered row (already `trim_end`ed) and the lane
vector handed to the next row. -/
def buildGraphStep (parentMap : Oid → List Oid) (lanes : List (Option Oid)) (oid : Oid) :
    List Char × List (Option Oid) :=
  let parents := parentMap oid
  let matching := matchingLanes lanes oid
  let sel := selectCommitLane lanes oid
  let commitLane := sel.1
  let lanes1 := sel.2
  let closing := closingLanes matching commitLane
  let nb := newBranchesOf lanes1 parents
  let width := rowWidth lanes1 nb
  let line := (List.range width).map (laneChar lanes1 commitLane closing nb)
  (trimEndChars line, compactLanes (preCompactStep lanes1 commitLane closing parents nb))

/-- The renderer loop threaded over the commit sequence in display order. -/
def buildGraphAux (parentMap : Oid → List Oid) (lanes : List (Option Oid)) :
    List Oid → List (List Char)
  | [] => []
  | oid :: rest =>
    let step := buildGraphStep parentMap lanes oid
    step.1 :: buildGraphAux parentMap step.2 rest

/-- Rust `build_graph` (lines 99–203).  The entries list is reduced to the
commit ids (the only field of `LogEntry` the renderer reads), and the
`HashMap` lookup `parent_map.get(&oid).cloned().unwrap_or_default()` is a
total function `Oid → List Oid`.  Rows are returned as char lists. -/
def build_graph (entries : List Oid) (parentMap : Oid → List Oid) : List (List Char) :=
  buildGraphAux parentMap [] entries

/-- The successive lane-table states observed at the start of each row
(including the initial empty table and the table left after the last row). -/
def laneStates (parentMap : Oid → List Oid) (lanes : List (Option Oid)) :
    List Oid → List (List (Option Oid))
  | [] => [lanes]
  | oid :: rest => lanes :: laneStates parentMap (buildGraphStep parentMap lanes oid).2 rest

/-- Spec §4.3 step 2, stated in the spec's own words: the commit lane is the
first slot pending exactly this commit if any, otherwise the first empty
slot, otherwise the freshly appended slot one past the end. -/
def commitLaneSpec (lanes : List (Option Oid)) (oid : Oid) : Nat :=
  match lanes.findIdx? (fun l => l == some oid) with
  | some i => i
  | none =>
    match lanes.findIdx? (fun l => l.isNone) with
    | some j => j
    | none => lanes.length

/-- A strictly linear history: every commit's parent list is exactly the next
commit in display order, and the last commit is a parentless root. -/
def LinearChain (parentMap : Oid → List Oid) : List Oid → Prop
  | [] => True
  | [x] => parentMap x = []
  | x :: y :: rest => parentMap x = [y] ∧ LinearChain parentMap (y :: rest)

/-! ### Log loading, from src/git/log.rs (`get_log`)

The libgit2 collaborator is opaque: the revision walk is a list of
`Except`-valued commit ids, `find_commit` is a fallible lookup function, and
the reference map is a partial function.  Fallible Rust calls (`?`) become
`Except` bind.
-/

/-- Mirror of the `GitError` enum (src/git/mod.rs), payloads reduced to
message strings. -/
inductive GitError
  | NotFound
  | IoError
  | NotInRepo
  | NotOnBranch
  | CommandFailed (msg : String)
  | Git2Error (msg : String)
deriving DecidableEq, Repr

/-- Rust src/git/time.rs `format_unit`. -/
def format_unit (count : Int) (unit : String) : String :=
  if count = 1 then "1 " ++ unit ++ " ago"
  else toString count ++ " " ++ unit ++ "s ago"

/-- Rust src/git/time.rs `format_relative` (`i64` division truncates toward
zero, `Int.tdiv`). -/
def format_relative (diff_secs : Int) : String :=
  if diff_secs < 60 then "just now"
  else if diff_secs < 3600 then format_unit (Int.tdiv diff_secs 60) "min"
  else if diff_secs < 86400 then format_unit (Int.tdiv diff_secs 3600) "hour"
  else if diff_secs < 604800 then format_unit (Int.tdiv diff_secs 86400) "day"
  else if diff_secs < 2592000 then format_unit (Int.tdiv diff_secs 604800) "week"
  else if diff_secs < 31536000 then format_unit (Int.tdiv diff_secs 2592000) "month"
  else format_unit (Int.tdiv diff_secs 31536000) "year"

/-- The data `get_log` reads off one `git2::Commit`; accessors that can fail
in Rust (`short_id()?`) are `Except`-valued, accessors returning `Option`
(`summary()`, `author().name()`) are `Option`-valued. -/
structure CommitData where
  short_id : Except GitError String
  summary : Option String
  author_name : Option String
  time_secs : Int
  parent_ids : List Oid

/-- Mirror of `LogEntry` (src/git/log.rs lines 5-14). -/
structure LogEntry where
  oid : Oid
  short_id : String
  summary : String
  author_name : String
  time_relative : String
  is_merge : Bool
  refs : List String
deriving DecidableEq

/-- The body of the `for oid_result in revwalk.take(limit)` loop of `get_log`
(lines 38-70): both `oid_result?` and `repo.find_commit(oid)?` (and
`short_id()?`) propagate their error out of `get_log`.  Also accumulates the
`parent_map` entries inserted by the loop. -/
def get_log_loop (now_secs : Int) (ref_map : Oid → Option (List String))
    (find_commit : Oid → Except GitError CommitData) :
    List (Except GitError Oid) → Except GitError (List LogEntry × List (Oid × List Oid))
  | [] => .ok ([], [])
  | r :: rest =>
    match r with
    | .error e => .error e
    | .ok oid =>
      match find_commit oid with
      | .error e => .error e
      | .ok commit =>
        match commit.short_id with
        | .error e => .error e
        | .ok sid =>
          let entry : LogEntry :=
            { oid := oid
              short_id := sid
              summary := commit.summary.getD ""
              author_name := commit.author_name.getD "Unknown"
              time_relative := format_relative (now_secs - commit.time_secs)
              is_merge := commit.parent_ids.length > 1
              refs := (ref_map oid).getD [] }
          match get_log_loop now_secs ref_map find_commit rest with
          | .error e => .error e
          | .ok tail => .ok (entry :: tail.1, (oid, commit.parent_ids) :: tail.2)

/-- Mirror of `LogGraph` (src/git/log.rs lines 16-20); graph rows as char
lists. -/
structure LogGraph where
  entries : List LogEntry
  graph_lines : List (List Char)

/-- Rust `parent_map.get(&oid).cloned().unwrap_or_default()` over the
accumulated association list. -/
def lookupParents (pmap : List (Oid × List Oid)) (oid : Oid) : List Oid :=
  ((pmap.find? (fun q => q.1 == oid)).map Prod.snd).getD []

/-- Rust `get_log` (lines 22-78): walk at most `limit` commits, build the
entry list and parent map (any single failure aborting the whole call via
`?`), then render the graph. -/
def get_log (now_secs : Int) (ref_map : Oid → Option (List String))
    (find_commit : Oid → Except GitError CommitData)
    (revwalk : List (Except GitError Oid)) (limit : Nat) :
    Except GitError LogGraph :=
  match get_log_loop now_secs ref_map find_commit (revwalk.take limit) with
  | .error e => .error e
  | .ok r =>
    .ok { entries := r.1
          graph_lines := build_graph (r.1.map LogEntry.oid) (lookupParents r.2) }

/-! ### Fuzzy matching, from src/commands/checkout.rs (`fuzzy_match_branch`)
and src/ui/branch_picker.rs (`filter_branches`)

The scoring function itself lives in the external `fuzzy_matcher` crate
(SkimMatcherV2), so the repository code is embedded parameterized over the
matcher `fm`, and the matcher is modelled from the spec below.
-/

/-- Rust `i64::MAX`. -/
def i64MAX : Int := 2 ^ 63 - 1

/-- Rust `char::to_ascii_lowercase`. -/
def asciiLower (c : Char) : Char :=
  if 'A' ≤ c ∧ c ≤ 'Z' then Char.ofNat (c.toNat + 32) else c

/-- Rust `str::eq_ignore_ascii_case`. -/
def eq_ignore_ascii_case (a b : String) : Bool :=
  a.data.map asciiLower == b.data.map asciiLower

/-- Modelled from the spec: the external SkimMatcherV2 scoring of the
`fuzzy_matcher` crate is not part of this repository.  Spec §4.6 describes it
as subsequence-style fuzzy scoring; the subsequence test is case-insensitive
(ASCII folding), matching the spec's case-insensitive exact matches also
matching fuzzily. -/
def isSubseqCI : List Char → List Char → Bool
  | [], _ => true
  | _ :: _, [] => false
  | q :: qs, c :: cs =>
    if asciiLower q = asciiLower c then isSubseqCI qs cs else isSubseqCI (q :: qs) cs

/-- Modelled from the spec: subsequence-style match score for one candidate;
no match gives `none`, and among matches the score decreases with candidate
length, so tighter candidates rank higher.  All scores are far below
`i64::MAX`. -/
def skim_fuzzy_match (candidate query : String) : Option Int :=
  if isSubseqCI query.data candidate.data then
    some (1000 - (candidate.data.length : Int))
  else none

/-- One comparison step of Rust `Iterator::max_by_key`: a new element
replaces the current maximum when its key is at least as large (the last
maximal element wins ties). -/
def max_by_key_step (acc : Option (Int × String)) (x : Int × String) :
    Option (Int × String) :=
  match acc with
  | none => some x
  | some a => if a.1 ≤ x.1 then some x else some a

/-- Rust `Iterator::max_by_key`, written as the left fold it performs. -/
def max_by_key (l : List (Int × String)) : Option (Int × String) :=
  l.foldl max_by_key_step none

/-- Rust `fuzzy_match_branch` (src/commands/checkout.rs lines 101-117):
exact ASCII-case-insensitive matches are given score `i64::MAX`, everything
else the external matcher's score, and the best-scoring branch is returned. -/
def fuzzy_match_branch (fm : String → String → Option Int)
    (query : String) (branches : List String) : Option String :=
  (max_by_key (branches.filterMap (fun branch =>
    if eq_ignore_ascii_case branch query then some (i64MAX, branch)
    else (fm branch query).map (fun score => (score, branch))))).map Prod.snd

/-- Rust `sort_by_key(|(score, _)| Reverse(*score))`: a stable sort,
descending by score.  `List.mergeSort` is stable, like Rust's sort. -/
def sortByScoreDesc (l : List (Int × String)) : List (Int × String) :=
  l.mergeSort (fun a b => b.1 ≤ a.1)

/-- Rust `filter_branches` (src/ui/branch_picker.rs lines 13-26),
parameterized over the external matcher `fm`. -/
def filter_branches (fm : String → String → Option Int)
    (branches : List String) (query : String) : List String :=
  if query.isEmpty then branches
  else
    (sortByScoreDesc (branches.filterMap
      (fun b => (fm b query).map (fun score => (score, b))))).map Prod.snd

/-! ### Interactive log viewer loop, from src/ui/log_viewer.rs (`run`)

The loop is single-threaded and polled; one iteration is one `Tick` carrying
the wall-clock time (in milliseconds) at which it runs and the key event it
reads (if any).  Only the navigation keys are modelled; the quit/checkout
keys leave the loop and end the trace.
-/

/-- src/ui/log_viewer.rs line 9. -/
def DEBOUNCE_MS : Nat := 100

inductive NavKey
  | up | down | pageUp | pageDown | home | endKey
deriving DecidableEq

/-- The selection-index updates of the key handler (lines 88-107);
`Nat` subtraction is Rust's `saturating_sub`. -/
def applyNav (len : Nat) (idx : Nat) : NavKey → Nat
  | .up => idx - 1
  | .down => if idx + 1 < len then idx + 1 else idx
  | .pageUp => idx - 10
  | .pageDown => min (idx + 10) (len - 1)
  | .home => 0
  | .endKey => len - 1

structure ViewerState where
  selected_index : Nat
  last_selected_oid : Option Oid
  last_selection_change : Nat
  pending_fetch : Bool
deriving DecidableEq

structure Tick where
  now : Nat
  key : Option NavKey
deriving DecidableEq

/-- State at loop entry (lines 21-26). -/
def initViewerState (startTime : Nat) : ViewerState :=
  { selected_index := 0
    last_selected_oid := none
    last_selection_change := startTime
    pending_fetch := false }

/-- Lines 31-36: selection-change detection — on a change, remember the new
oid, mark a fetch pending and reset the debounce timer. -/
def viewerSync (entries : List Oid) (st : ViewerState) (t : Tick) : ViewerState :=
  if entries[st.selected_index]? ≠ st.last_selected_oid then
    { st with pending_fetch := true, last_selection_change := t.now,
              last_selected_oid := entries[st.selected_index]? }
  else st

/-- Line 38: the debounce guard — a fetch fires when one is pending and the
window has elapsed since the last selection change. -/
def viewerFires (st1 : ViewerState) (t : Tick) : Bool :=
  st1.pending_fetch && decide (DEBOUNCE_MS ≤ t.now - st1.last_selection_change)

/-- Lines 88-107: apply the navigation key read by the poll, if any. -/
def viewerNav (entries : List Oid) (st2 : ViewerState) (t : Tick) : ViewerState :=
  match t.key with
  | none => st2
  | some k => { st2 with selected_index := applyNav entries.length st2.selected_index k }

/-- One iteration of the viewer loop (lines 28-116): detect a selection
change (resetting the debounce timer), perform the debounced detail fetch
once the window has elapsed (for the currently selected oid), then apply the
navigation key.  Returns the new state and the oid whose details were
fetched this tick, if any. -/
def viewerTick (entries : List Oid) (st : ViewerState) (t : Tick) :
    ViewerState × Option Oid :=
  (viewerNav entries
    (if viewerFires (viewerSync entries st t) t then
      { viewerSync entries st t with pending_fetch := false }
    else viewerSync entries st t) t,
   if viewerFires (viewerSync entries st t) t then entries[st.selected_index]?
   else none)

/-- The viewer loop over a trace of ticks, collecting the fetches it performs
in order. -/
def viewerRun (entries : List Oid) (st : ViewerState) : List Tick → ViewerState × List Oid
  | [] => (st, [])
  | t :: ts =>
    let step := viewerTick entries st t
    let rest := viewerRun entries step.1 ts
    (rest.1, step.2.toList ++ rest.2)

/-- A concrete simulation trace: three log entries, five rapid `down`
navigation events 20 ms apart, a quiet tick, one more quiet tick inside the
window, the tick at which the window elapses, and a trailing quiet tick. -/
def demoEntries : List Oid := [10, 20, 30]

def demoRapid : List Tick :=
  [⟨0, some .down⟩, ⟨20, some .down⟩, ⟨40, some .down⟩, ⟨60, some .down⟩,
    ⟨80, some .down⟩]

def demoT1 : Tick := ⟨95, none⟩

def demoWaits : List Tick := [⟨100, none⟩]

def demoTf : Tick := ⟨141, none⟩

def demoAfter : List Tick := [⟨200, none⟩]

/-- Rapid navigation: every tick of the trace happens while the debounce
window of the most recent selection change is still open — either the tick
itself detects a fresh selection change (which resets the window), or it
arrives strictly before the current window elapses. -/
def withinWindow (entries : List Oid) : ViewerState → List Tick → Bool
  | _, [] => true
  | st, t :: ts =>
    (decide (entries[st.selected_index]? ≠ st.last_selected_oid) ||
      decide (t.now < st.last_selection_change + DEBOUNCE_MS)) &&
    withinWindow entries (viewerTick entries st t).1 ts

/-! ### Branch picker loop, from src/ui/branch_picker.rs (`run`) -/

inductive PickerKey
  | esc | ctrlC | enter | up | down | backspace | char (c : Char)
deriving DecidableEq

structure PickerState where
  query : String
  selected_index : Nat
deriving DecidableEq

/-- State at loop entry (lines 144-145). -/
def initPickerState : PickerState := { query := "", selected_index := 0 }

/-- Loop-top recomputation (lines 152-159): re-filter against the current
query and re-clamp the selection when the filtered list shrank
(`if selected_index >= filtered.len() && !filtered.is_empty()`). -/
def pickerView (fm : String → String → Option Int) (branches : List String)
    (st : PickerState) : List String × Nat :=
  (filter_branches fm branches st.query,
    if st.selected_index ≥ (filter_branches fm branches st.query).length ∧
        filter_branches fm branches st.query ≠ [] then
      (filter_branches fm branches st.query).length - 1
    else st.selected_index)

/-- The key handler (lines 227-249), acting on the re-filtered, re-clamped
view; `Sum.inr` is a `return` out of the loop (`none` = cancelled,
`some b` = branch committed by enter via `filtered.get(selected_index)`). -/
def pickerStep (fm : String → String → Option Int) (branches : List String)
    (st : PickerState) (k : PickerKey) : PickerState ⊕ Option String :=
  let v := pickerView fm branches st
  match k with
  | .esc => .inr none
  | .ctrlC => .inr none
  | .enter => .inr v.1[v.2]?
  | .up => .inl { st with selected_index := v.2 - 1 }
  | .down => .inl { st with selected_index := if v.2 + 1 < v.1.length then v.2 + 1 else v.2 }
  | .backspace => .inl { query := String.mk st.query.data.dropLast, selected_index := 0 }
  | .char c => .inl { query := st.query.push c, selected_index := 0 }

/-- The picker loop over a list of key events. -/
def pickerRun (fm : String → String → Option Int) (branches : List String)
    (st : PickerState) : List PickerKey → PickerState ⊕ Option String
  | [] => .inl st
  | k :: ks =>
    match pickerStep fm branches st k with
    | .inl st2 => pickerRun fm branches st2 ks
    | .inr r => .inr r

/-! ### Summary truncation, from src/ui/log_viewer.rs (`truncate`)

Rust `str::len` counts BYTES and `&s[..k]` panics when `k` is not a char
boundary; a string is a char list here, with the UTF-8 byte arithmetic made
explicit and the panic modelled as `none`.
-/

/-- UTF-8 encoded length in bytes of one char. -/
def utf8Len (c : Char) : Nat :=
  if c.toNat < 0x80 then 1
  else if c.toNat < 0x800 then 2
  else if c.toNat < 0x10000 then 3
  else 4

/-- Rust `str::len`: length in bytes. -/
def strLenBytes (s : List Char) : Nat := (s.map utf8Len).sum

/-- Rust `&s[..k]`: the prefix of `s` occupying exactly the first `k` bytes,
or `none` (panic) when `k` overruns the string or falls inside the UTF-8
encoding of a char. -/
def slicePrefix : List Char → Nat → Option (List Char)
  | _, 0 => some []
  | [], _ + 1 => none
  | c :: cs, k + 1 =>
    if utf8Len c ≤ k + 1 then (slicePrefix cs (k + 1 - utf8Len c)).map (c :: ·)
    else none

/-- Rust `truncate` (src/ui/log_viewer.rs lines 314-320):
`format!("{}...", &s[..max_len.saturating_sub(3)])` when the string is longer
than `max_len` bytes; `none` models the byte-slice panic. -/
def truncate (s : List Char) (max_len : Nat) : Option (List Char) :=
  if strLenBytes s > max_len then
    (slicePrefix s (max_len - 3)).map (fun p => p ++ ['.', '.', '.'])
  else some s

/-! ## Helper lemmas about `trim_end` -/

theorem trimEndChars_decomp (l : List Char) :
    ∃ t, l = trimEndChars l ++ t ∧ ∀ c ∈ t, c.isWhitespace = true := by
  refine ⟨(l.reverse.takeWhile Char.isWhitespace).reverse, ?_, ?_⟩
  · have h := List.takeWhile_append_dropWhile Char.isWhitespace l.reverse
    calc l = l.reverse.reverse := by rw [List.reverse_reverse]
      _ = (List.takeWhile Char.isWhitespace l.reverse ++
            List.dropWhile Char.isWhitespace l.reverse).reverse := by rw [h]
      _ = trimEndChars l ++ (List.takeWhile Char.isWhitespace l.reverse).reverse := by
            rw [List.reverse_append]; rfl
  · intro c hc
    exact List.mem_takeWhile_imp (List.mem_reverse.mp hc)

theorem getElem?_trimEndChars {l : List Char} {i : Nat} {c : Char}
    (h : l[i]? = some c) (hc : c.isWhitespace = false) :
    (trimEndChars l)[i]? = some c := by
  obtain ⟨t, hl, ht⟩ := trimEndChars_decomp l
  by_cases hi : i < (trimEndChars l).length
  · rw [hl, List.getElem?_append, if_pos hi] at h
    exact h
  · exfalso
    rw [hl, List.getElem?_append, if_neg hi] at h
    have hw := ht c (List.getElem?_mem h)
    rw [hw] at hc
    exact Bool.noConfusion hc

theorem getElem?_of_trimEndChars {l : List Char} {i : Nat} {c : Char}
    (h : (trimEndChars l)[i]? = some c) : l[i]? = some c := by
  obtain ⟨t, hl, _⟩ := trimEndChars_decomp l
  have hi : i < (trimEndChars l).length := by
    by_contra hn
    rw [List.getElem?_eq_none (Nat.le_of_not_lt hn)] at h
    exact Option.noConfusion h
  rw [hl, List.getElem?_append, if_pos hi]
  exact h

theorem trimEndChars_eq_self {l : List Char} (h : ∀ c ∈ l, c.isWhitespace = false) :
    trimEndChars l = l := by
  unfold trimEndChars
  have hd : l.reverse.dropWhile Char.isWhitespace = l.reverse := by
    cases hr : l.reverse with
    | nil => rfl
    | cons a t =>
      rw [List.dropWhile_cons, if_neg]
      have ha : a ∈ l := by
        rw [← List.mem_reverse, hr]
        exact List.mem_cons_self a t
      simp [h a ha]
  rw [hd, List.reverse_reverse]

/-! ## Helper lemmas about the lane table -/

theorem filterMap_if_cons_pos (oid : Oid) (n : Nat) (a : Option Oid)
    (l : List (Nat × Option Oid)) (h : a = some oid) :
    List.filterMap (fun p => if p.2 = some oid then some p.1 else none) ((n, a) :: l) =
      n :: List.filterMap (fun p => if p.2 = some oid then some p.1 else none) l := by
  rw [List.filterMap_cons]
  simp [h]

theorem mem_matchingLanes_aux (oid : Oid) :
    ∀ (ls : List (Option Oid)) (n j : Nat),
      (j ∈ (List.enumFrom n ls).filterMap
        (fun p => if p.2 = some oid then some p.1 else none)) ↔
      (n ≤ j ∧ ls[j - n]? = some (some oid)) := by
  intro ls
  induction ls with
  | nil => intro n j; simp
  | cons a t ih =>
    intro n j
    rw [List.enumFrom_cons]
    by_cases h : a = some oid
    · rw [filterMap_if_cons_pos oid n a _ h, List.mem_cons]
      constructor
      · rintro (rfl | hmem)
        · simp [h]
        · obtain ⟨hn, hg⟩ := (ih (n + 1) j).mp hmem
          refine ⟨by omega, ?_⟩
          have hd : j - n = (j - (n + 1)) + 1 := by omega
          rw [hd, List.getElem?_cons_succ]
          exact hg
      · rintro ⟨hn, hg⟩
        rcases Nat.eq_or_lt_of_le hn with heq | hlt
        · left; exact heq.symm
        · right
          refine (ih (n + 1) j).mpr ⟨by omega, ?_⟩
          have hd : j - n = (j - (n + 1)) + 1 := by omega
          rw [hd, List.getElem?_cons_succ] at hg
          exact hg
    · rw [List.filterMap_cons_none (by simp [h]), ih (n + 1) j]
      constructor
      · rintro ⟨hn, hg⟩
        refine ⟨by omega, ?_⟩
        have hd : j - n = (j - (n + 1)) + 1 := by omega
        rw [hd, List.getElem?_cons_succ]
        exact hg
      · rintro ⟨hn, hg⟩
        rcases Nat.eq_or_lt_of_le hn with heq | hlt
        · exfalso
          rw [← heq, Nat.sub_self, List.getElem?_cons_zero] at hg
          exact h (Option.some.inj hg)
        · refine ⟨by omega, ?_⟩
          have hd : j - n = (j - (n + 1)) + 1 := by omega
          rw [hd, List.getElem?_cons_succ] at hg
          exact hg

theorem mem_matchingLanes {lanes : List (Option Oid)} {oid : Oid} {j : Nat} :
    j ∈ matchingLanes lanes oid ↔ lanes[j]? = some (some oid) := by
  have h := mem_matchingLanes_aux oid lanes 0 j
  simpa [matchingLanes, List.enum] using h

theorem matchingLanes_head?_aux (oid : Oid) :
    ∀ (ls : List (Option Oid)) (n : Nat),
      ((List.enumFrom n ls).filterMap
        (fun p => if p.2 = some oid then some p.1 else none)).head? =
      ls.findIdx? (fun l => l == some oid) n := by
  intro ls
  induction ls with
  | nil => intro n; rfl
  | cons a t ih =>
    intro n
    rw [List.enumFrom_cons, List.findIdx?_cons]
    by_cases h : a = some oid
    · rw [filterMap_if_cons_pos oid n a _ h, if_pos (by simp [h])]
      rfl
    · rw [List.filterMap_cons_none (by simp [h]), if_neg (by simp [h])]
      exact ih (n + 1)

theorem matchingLanes_head? (lanes : List (Option Oid)) (oid : Oid) :
    (matchingLanes lanes oid).head? = lanes.findIdx? (fun l => l == some oid) := by
  simpa [matchingLanes, List.enum] using matchingLanes_head?_aux oid lanes 0

theorem findIdx?_some_bounds {α : Type} {p : α → Bool} :
    ∀ (l : List α) (i j : Nat), l.findIdx? p i = some j → i ≤ j ∧ j < i + l.length := by
  intro l
  induction l with
  | nil => intro i j h; exact Option.noConfusion h
  | cons a t ih =>
    intro i j h
    rw [List.findIdx?_cons] at h
    by_cases hp : p a
    · rw [if_pos hp] at h
      have hj := Option.some.inj h
      subst hj
      exact ⟨Nat.le_refl i, by rw [List.length_cons]; omega⟩
    · rw [if_neg hp] at h
      obtain ⟨h1, h2⟩ := ih (i + 1) j h
      exact ⟨by omega, by simp at h2 ⊢; omega⟩

theorem selectCommitLane_eq_spec (lanes : List (Option Oid)) (oid : Oid) :
    (selectCommitLane lanes oid).1 = commitLaneSpec lanes oid := by
  rcases hf : lanes.findIdx? (fun l => l == some oid) with _ | i
  · rcases hn : lanes.findIdx? (fun l => l.isNone) with _ | j
    · simp [selectCommitLane, commitLaneSpec, matchingLanes_head?, hf, hn]
    · simp [selectCommitLane, commitLaneSpec, matchingLanes_head?, hf, hn]
  · simp [selectCommitLane, commitLaneSpec, matchingLanes_head?, hf]

theorem mem_of_head?_eq_some {α : Type} {l : List α} {a : α} (h : l.head? = some a) :
    a ∈ l := by
  cases l with
  | nil => exact Option.noConfusion h
  | cons x xs =>
    rw [List.head?_cons] at h
    rw [← Option.some.inj h]
    exact List.mem_cons_self x xs

theorem selectCommitLane_fst_lt (lanes : List (Option Oid)) (oid : Oid) :
    (selectCommitLane lanes oid).1 < (selectCommitLane lanes oid).2.length := by
  cases hm : (matchingLanes lanes oid).head? with
  | some first =>
    have hmem := mem_matchingLanes.mp (mem_of_head?_eq_some hm)
    have hlt : first < lanes.length := (List.getElem?_eq_some.mp hmem).1
    simp only [selectCommitLane, hm]
    exact hlt
  | none =>
    cases hn : lanes.findIdx? (fun l => l.isNone) with
    | some free =>
      have hb := findIdx?_some_bounds lanes 0 free hn
      simp only [selectCommitLane, hm, hn, List.length_set]
      omega
    | none =>
      simp only [selectCommitLane, hm, hn, List.length_append, List.length_cons,
        List.length_nil]
      omega

theorem selectCommitLane_len_ge (lanes : List (Option Oid)) (oid : Oid) :
    lanes.length ≤ (selectCommitLane lanes oid).2.length := by
  cases hm : (matchingLanes lanes oid).head? with
  | some first => simp [selectCommitLane, hm]
  | none =>
    cases hn : lanes.findIdx? (fun l => l.isNone) with
    | some free => simp [selectCommitLane, hm, hn]
    | none => simp [selectCommitLane, hm, hn]

theorem selectCommitLane_no_none {lanes : List (Option Oid)} {oid : Oid}
    (h : (none : Option Oid) ∉ lanes) :
    (none : Option Oid) ∉ (selectCommitLane lanes oid).2 := by
  cases hm : (matchingLanes lanes oid).head? with
  | some first =>
    simp only [selectCommitLane, hm]
    exact h
  | none =>
    have hn : lanes.findIdx? (fun l => l.isNone) = none := by
      rw [List.findIdx?_eq_none_iff]
      intro x hx
      cases x with
      | none => exact absurd hx h
      | some y => rfl
    simp only [selectCommitLane, hm, hn]
    intro hmem
    rcases List.mem_append.mp hmem with h1 | h1
    · exact h h1
    · simp at h1

theorem buildGraphStep_fst (pm : Oid → List Oid) (lanes : List (Option Oid)) (oid : Oid) :
    (buildGraphStep pm lanes oid).1 =
      trimEndChars ((List.range (rowWidth (selectCommitLane lanes oid).2
          (newBranchesOf (selectCommitLane lanes oid).2 (pm oid)))).map
        (laneChar (selectCommitLane lanes oid).2 (selectCommitLane lanes oid).1
          (closingLanes (matchingLanes lanes oid) (selectCommitLane lanes oid).1)
          (newBranchesOf (selectCommitLane lanes oid).2 (pm oid)))) := rfl

theorem buildGraphStep_snd (pm : Oid → List Oid) (lanes : List (Option Oid)) (oid : Oid) :
    (buildGraphStep pm lanes oid).2 =
      compactLanes (preCompactStep (selectCommitLane lanes oid).2
        (selectCommitLane lanes oid).1
        (closingLanes (matchingLanes lanes oid) (selectCommitLane lanes oid).1)
        (pm oid)
        (newBranchesOf (selectCommitLane lanes oid).2 (pm oid))) := rfl

/-! ## C1: the commit lane and the closing lanes of a row -/

/-- C1.  On every row, the `*` column is exactly the lane the spec's cascade
chooses — the first slot pending this commit's id if one exists, otherwise
the first empty slot, otherwise the newly appended slot — and every other
slot pending the same commit id is rendered `/` on that row. -/
theorem commit_lane_rendering (parentMap : Oid → List Oid) (lanes : List (Option Oid))
    (oid : Oid) :
    (buildGraphStep parentMap lanes oid).1[commitLaneSpec lanes oid]? = some '*' ∧
    (∀ i, (buildGraphStep parentMap lanes oid).1[i]? = some '*' →
      i = commitLaneSpec lanes oid) ∧
    (∀ j, j ∈ matchingLanes lanes oid → j ≠ commitLaneSpec lanes oid →
      (buildGraphStep parentMap lanes oid).1[j]? = some '/') := by
  have hcl := selectCommitLane_eq_spec lanes oid
  rw [← hcl]
  rw [buildGraphStep_fst]
  refine ⟨?_, ?_, ?_⟩
  · have hw : (selectCommitLane lanes oid).1 <
        rowWidth (selectCommitLane lanes oid).2
          (newBranchesOf (selectCommitLane lanes oid).2 (parentMap oid)) :=
      Nat.lt_of_lt_of_le (selectCommitLane_fst_lt lanes oid) (Nat.le_max_left _ _)
    apply getElem?_trimEndChars
    · rw [List.getElem?_map, List.getElem?_range hw]
      simp [laneChar]
    · decide
  · intro i hi
    have hi2 := getElem?_of_trimEndChars hi
    rw [List.getElem?_map] at hi2
    by_cases hiw : i < (List.range (rowWidth (selectCommitLane lanes oid).2
        (newBranchesOf (selectCommitLane lanes oid).2 (parentMap oid)))).length
    · rw [List.length_range] at hiw
      rw [List.getElem?_range hiw] at hi2
      have hstar := Option.some.inj hi2
      by_contra hne
      unfold laneChar at hstar
      rw [if_neg hne] at hstar
      split_ifs at hstar <;> exact absurd hstar (by decide)
    · rw [List.getElem?_eq_none (Nat.le_of_not_lt hiw)] at hi2
      exact Option.noConfusion hi2

  · intro j hj hne
    have hjs := mem_matchingLanes.mp hj
    have hjl : j < lanes.length := (List.getElem?_eq_some.mp hjs).1
    have hjw : j < rowWidth (selectCommitLane lanes oid).2
        (newBranchesOf (selectCommitLane lanes oid).2 (parentMap oid)) :=
      Nat.lt_of_lt_of_le (Nat.lt_of_lt_of_le hjl (selectCommitLane_len_ge lanes oid))
        (Nat.le_max_left _ _)
    apply getElem?_trimEndChars
    · rw [List.getElem?_map, List.getElem?_range hjw]
      have hclose : j ∈ closingLanes (matchingLanes lanes oid) (selectCommitLane lanes oid).1 := by
        rw [closingLanes, List.mem_filter]
        exact ⟨hj, by simp [hne]⟩
      simp [laneChar, hne]
      intro hnot
      exact absurd hclose hnot
    · decide

/-- Witness for C1 at a concrete reconverging lane table: two lanes both
pending commit 5; the first becomes the `*` column, the second renders `/`. -/
theorem commit_lane_rendering_witness :
    (buildGraphStep (fun _ => []) [some 5, some 5] 5).1[0]? = some '*' ∧
    (buildGraphStep (fun _ => []) [some 5, some 5] 5).1[1]? = some '/' := by
  constructor
  · exact (commit_lane_rendering (fun _ => []) [some 5, some 5] 5).1
  · exact (commit_lane_rendering (fun _ => []) [some 5, some 5] 5).2.2 1 (by decide) (by decide)

/-! ## Helper lemmas about the new merge lanes -/

theorem le_foldr_max {l : List Nat} {a : Nat} (h : a ∈ l) : a ≤ l.foldr max 0 := by
  induction l with
  | nil => cases h
  | cons x t ih =>
    rw [List.foldr_cons]
    rcases List.mem_cons.mp h with rfl | h2
    · exact Nat.le_max_left _ _
    · exact Nat.le_trans (ih h2) (Nat.le_max_right _ _)

theorem lt_foldr_max {l : List Nat} {i : Nat} (h : i < l.foldr max 0) : ∃ a ∈ l, i < a := by
  induction l with
  | nil => simp at h
  | cons x t ih =>
    rw [List.foldr_cons] at h
    rcases lt_max_iff.mp h with h1 | h2
    · exact ⟨x, List.mem_cons_self x t, h1⟩
    · obtain ⟨a, ha, hia⟩ := ih h2
      exact ⟨a, List.mem_cons_of_mem x ha, hia⟩

theorem newBranches_foldl_spec (L : List (Option Oid)) :
    ∀ (ps : List Oid) (acc : List (Nat × Oid)),
      acc.map Prod.fst = List.range' L.length acc.length →
      (ps.foldl (fun a p => if L.contains (some p) then a
          else a ++ [(L.length + a.length, p)]) acc).map Prod.snd =
        acc.map Prod.snd ++ ps.filter (fun p => !(L.contains (some p))) ∧
      (ps.foldl (fun a p => if L.contains (some p) then a
          else a ++ [(L.length + a.length, p)]) acc).map Prod.fst =
        List.range' L.length (ps.foldl (fun a p => if L.contains (some p) then a
          else a ++ [(L.length + a.length, p)]) acc).length := by
  intro ps
  induction ps with
  | nil =>
    intro acc h
    constructor
    · simp
    · simpa using h
  | cons p pt ih =>
    intro acc h
    by_cases hc : L.contains (some p)
    · simp only [List.foldl_cons, if_pos hc, List.filter_cons, hc, Bool.not_true]
      obtain ⟨h1, h2⟩ := ih acc h
      exact ⟨h1, h2⟩
    · simp only [List.foldl_cons, if_neg hc]
      have hinv : (acc ++ [(L.length + acc.length, p)]).map Prod.fst =
          List.range' L.length (acc ++ [(L.length + acc.length, p)]).length := by
        simp only [List.map_append, h, List.map_cons, List.map_nil, List.length_append,
          List.length_cons, List.length_nil, Nat.zero_add]
        have hr := @List.range'_concat 1 L.length acc.length
        simp only [Nat.one_mul] at hr
        exact hr.symm
      obtain ⟨h1, h2⟩ := ih (acc ++ [(L.length + acc.length, p)]) hinv
      constructor
      · rw [h1, List.map_append]
        simp [hc, List.filter_cons]
        rw [if_neg (by simpa using hc)]
      · exact h2

theorem newBranchesOf_snd (lanes : List (Option Oid)) (parents : List Oid) :
    (newBranchesOf lanes parents).map Prod.snd =
      (parents.drop 1).filter (fun p => !(lanes.contains (some p))) := by
  unfold newBranchesOf
  by_cases h : parents.length > 1
  · rw [if_pos h]
    have hs := (newBranches_foldl_spec lanes (parents.drop 1) [] (by simp)).1
    simpa using hs
  · rw [if_neg h]
    have hd : parents.drop 1 = [] := by
      rw [List.drop_eq_nil_iff]
      omega
    rw [hd]
    rfl

theorem newBranchesOf_fst (lanes : List (Option Oid)) (parents : List Oid) :
    (newBranchesOf lanes parents).map Prod.fst =
      List.range' lanes.length (newBranchesOf lanes parents).length := by
  unfold newBranchesOf
  by_cases h : parents.length > 1
  · rw [if_pos h]
    exact (newBranches_foldl_spec lanes (parents.drop 1) [] (by simp)).2
  · rw [if_neg h]
    rfl

theorem mem_newBranchesOf_bounds {lanes : List (Option Oid)} {parents : List Oid}
    {q : Nat × Oid} (h : q ∈ newBranchesOf lanes parents) :
    lanes.length ≤ q.1 ∧ q.1 < lanes.length + (newBranchesOf lanes parents).length := by
  have hm : q.1 ∈ (newBranchesOf lanes parents).map Prod.fst := List.mem_map_of_mem _ h
  rw [newBranchesOf_fst, List.mem_range'] at hm
  obtain ⟨i, hi, hq⟩ := hm
  omega

theorem newBranchesOf_covers {lanes : List (Option Oid)} {parents : List Oid} {i : Nat}
    (h1 : lanes.length ≤ i)
    (h2 : i < lanes.length + (newBranchesOf lanes parents).length) :
    (newBranchesOf lanes parents).any (fun q => q.1 = i) = true := by
  have hm : i ∈ (newBranchesOf lanes parents).map Prod.fst := by
    rw [newBranchesOf_fst, List.mem_range']
    exact ⟨i - lanes.length, by omega, by omega⟩
  rw [List.mem_map] at hm
  obtain ⟨q, hq, hqi⟩ := hm
  rw [List.any_eq_true]
  exact ⟨q, hq, by simp [hqi]⟩

theorem mem_newBranchesOf_lt_width {lanes : List (Option Oid)} {parents : List Oid}
    {q : Nat × Oid} (h : q ∈ newBranchesOf lanes parents) :
    q.1 < rowWidth lanes (newBranchesOf lanes parents) := by
  have hmem : q.1 + 1 ∈ (newBranchesOf lanes parents).map (fun q => q.1 + 1) :=
    List.mem_map_of_mem _ h
  have hle := le_foldr_max hmem
  exact Nat.lt_of_lt_of_le (Nat.lt_succ_self _) (Nat.le_trans hle (Nat.le_max_right _ _))

theorem mem_closingLanes_lt {lanes : List (Option Oid)} {oid : Oid} {cl j : Nat}
    (h : j ∈ closingLanes (matchingLanes lanes oid) cl) : j < lanes.length := by
  rw [closingLanes, List.mem_filter] at h
  exact (List.getElem?_eq_some.mp (mem_matchingLanes.mp h.1)).1

/-! ## C2: new lanes for the extra parents of a merge commit -/

/-- C2.  On a merge commit's row, the extra parents that are not already
pending in some lane get new lanes at consecutive positions appended after
all currently known lanes (already-pending extra parents get none), and the
row renders `\` exactly at those new-lane positions. -/
theorem merge_new_lanes (parentMap : Oid → List Oid) (lanes : List (Option Oid)) (oid : Oid) :
    (newBranchesOf (selectCommitLane lanes oid).2 (parentMap oid)).map Prod.snd =
      ((parentMap oid).drop 1).filter
        (fun p => !((selectCommitLane lanes oid).2.contains (some p))) ∧
    (newBranchesOf (selectCommitLane lanes oid).2 (parentMap oid)).map Prod.fst =
      List.range' (selectCommitLane lanes oid).2.length
        (newBranchesOf (selectCommitLane lanes oid).2 (parentMap oid)).length ∧
    (∀ i, (buildGraphStep parentMap lanes oid).1[i]? = some '\\' ↔
      i ∈ (newBranchesOf (selectCommitLane lanes oid).2 (parentMap oid)).map Prod.fst) := by
  refine ⟨newBranchesOf_snd _ _, newBranchesOf_fst _ _, ?_⟩
  intro i
  rw [buildGraphStep_fst]
  constructor
  · intro hi
    have hi2 := getElem?_of_trimEndChars hi
    rw [List.getElem?_map] at hi2
    by_cases hiw : i < rowWidth (selectCommitLane lanes oid).2
        (newBranchesOf (selectCommitLane lanes oid).2 (parentMap oid))
    · rw [List.getElem?_range hiw] at hi2
      have hch := Option.some.inj hi2
      unfold laneChar at hch
      split_ifs at hch with h1 h2 h3
      · exact absurd hch (by decide)
      · exact absurd hch (by decide)
      · rw [List.any_eq_true] at h3
        obtain ⟨q, hq, hqe⟩ := h3
        rw [List.mem_map]
        exact ⟨q, hq, by simpa using hqe⟩
      · exact absurd hch (by decide)
      · exact absurd hch (by decide)
    · rw [List.getElem?_eq_none (by rw [List.length_range]; omega)] at hi2
      exact Option.noConfusion hi2
  · intro hmem
    rw [List.mem_map] at hmem
    obtain ⟨q, hq, hqi⟩ := hmem
    have hbnd := mem_newBranchesOf_bounds hq
    have hiw : i < rowWidth (selectCommitLane lanes oid).2
        (newBranchesOf (selectCommitLane lanes oid).2 (parentMap oid)) := by
      rw [← hqi]
      exact mem_newBranchesOf_lt_width hq
    apply getElem?_trimEndChars
    · rw [List.getElem?_map, List.getElem?_range hiw]
      have hne : i ≠ (selectCommitLane lanes oid).1 := by
        have := selectCommitLane_fst_lt lanes oid
        omega
      have hnc : i ∉ closingLanes (matchingLanes lanes oid) (selectCommitLane lanes oid).1 := by
        intro hc
        have := mem_closingLanes_lt hc
        have hge := selectCommitLane_len_ge lanes oid
        omega
      have hany : (newBranchesOf (selectCommitLane lanes oid).2 (parentMap oid)).any
          (fun q => q.1 = i) = true := by
        rw [List.any_eq_true]
        exact ⟨q, hq, by simp [hqi]⟩
      simp [laneChar, hne, hnc, hany]
    · decide

/-- Witness for C2 at a concrete merge: commit 3 with parents [1, 2] starting
from an empty lane table appends lane 1 for parent 2 and renders `\` there. -/
theorem merge_new_lanes_witness :
    (buildGraphStep (fun n => if n = 3 then [1, 2] else []) [] 3).1[1]? = some '\\' :=
  ((merge_new_lanes (fun n => if n = 3 then [1, 2] else []) [] 3).2.2 1).mpr (by decide)

/-! ## C3: the lane-table update and the no-empty-slot invariant -/

theorem compactLanes_no_none (ls : List (Option Oid)) :
    (none : Option Oid) ∉ compactLanes ls := by
  unfold compactLanes
  intro h
  rw [List.mem_map] at h
  obtain ⟨x, _, hx⟩ := h
  exact Option.noConfusion hx

theorem compactLanes_pending (ls : List (Option Oid)) :
    (compactLanes ls).filterMap id = ls.filterMap id := by
  unfold compactLanes
  rw [List.filterMap_map]
  have hf : (id ∘ some : Oid → Option Oid) = some := rfl
  rw [hf, List.filterMap_some]

theorem laneStates_no_none (pm : Oid → List Oid) :
    ∀ (entries : List Oid) (lanes : List (Option Oid)),
      (none : Option Oid) ∉ lanes →
      ∀ st ∈ laneStates pm lanes entries, (none : Option Oid) ∉ st := by
  intro entries
  induction entries with
  | nil =>
    intro lanes h st hst
    simp only [laneStates, List.mem_singleton] at hst
    rw [hst]
    exact h
  | cons oid rest ih =>
    intro lanes h st hst
    rw [laneStates] at hst
    rcases List.mem_cons.mp hst with rfl | h2
    · exact h
    · refine ih (buildGraphStep pm lanes oid).2 ?_ st h2
      rw [buildGraphStep_snd]
      exact compactLanes_no_none _

/-- C3.  The post-row lane-table update is: clear the closing lanes, set the
commit lane to the first parent (empty for a root), insert the new lanes,
then compact; compaction leaves no empty slot and preserves the pending
entries and their relative order (its `filterMap id` image is unchanged);
consequently every lane table at the start of a row has no empty slot. -/
theorem lane_table_update (parentMap : Oid → List Oid) (entries : List Oid) :
    (∀ lanes oid, (buildGraphStep parentMap lanes oid).2 =
        compactLanes (preCompactStep (selectCommitLane lanes oid).2
          (selectCommitLane lanes oid).1
          (closingLanes (matchingLanes lanes oid) (selectCommitLane lanes oid).1)
          (parentMap oid)
          (newBranchesOf (selectCommitLane lanes oid).2 (parentMap oid)))) ∧
    (∀ ls : List (Option Oid), (none : Option Oid) ∉ compactLanes ls ∧
        (compactLanes ls).filterMap id = ls.filterMap id) ∧
    (∀ st ∈ laneStates parentMap [] entries, (none : Option Oid) ∉ st) :=
  ⟨fun lanes oid => buildGraphStep_snd parentMap lanes oid,
    fun ls => ⟨compactLanes_no_none ls, compactLanes_pending ls⟩,
    laneStates_no_none parentMap entries [] (by simp)⟩

/-- Witness for C3 on a concrete run (the merge history 3 ← 1, 2 ← 0): the
lane table reached after the first row, [some 1, some 2], has no empty slot. -/
theorem lane_table_update_witness : (none : Option Oid) ∉ [some 1, some 2] :=
  (lane_table_update
    (fun n => if n = 3 then [1, 2] else if n = 1 then [0] else if n = 2 then [0] else [])
    [3, 1, 2, 0]).2.2 [some 1, some 2] (by decide)

/-! ## C4: row width, and trailing trim never firing -/

/-- C4.  Starting from a lane table with no empty slots (the invariant at
every row, by C3), the rendered row's length is exactly the larger of the
lane count and one past the highest new-lane position, and no character of
the row is whitespace — so the `trim_end` applied to the row removes
nothing. -/
theorem row_width (parentMap : Oid → List Oid) (lanes : List (Option Oid)) (oid : Oid)
    (h : (none : Option Oid) ∉ lanes) :
    (buildGraphStep parentMap lanes oid).1.length =
      rowWidth (selectCommitLane lanes oid).2
        (newBranchesOf (selectCommitLane lanes oid).2 (parentMap oid)) ∧
    ∀ c ∈ (buildGraphStep parentMap lanes oid).1, c.isWhitespace = false := by
  have h1 : (none : Option Oid) ∉ (selectCommitLane lanes oid).2 := selectCommitLane_no_none h
  have hch : ∀ i < rowWidth (selectCommitLane lanes oid).2
      (newBranchesOf (selectCommitLane lanes oid).2 (parentMap oid)),
      (laneChar (selectCommitLane lanes oid).2 (selectCommitLane lanes oid).1
        (closingLanes (matchingLanes lanes oid) (selectCommitLane lanes oid).1)
        (newBranchesOf (selectCommitLane lanes oid).2 (parentMap oid)) i).isWhitespace
        = false := by
    intro i hiw
    unfold laneChar
    split_ifs with hcl hclo hnb hsome
    · decide
    · decide
    · decide
    · decide
    · exfalso
      by_cases hlen : i < (selectCommitLane lanes oid).2.length
      · apply hsome
        rw [List.getD_eq_getElem?_getD, List.getElem?_eq_getElem hlen]
        cases hv : (selectCommitLane lanes oid).2[i] with
        | none =>
          exact absurd (hv ▸ List.getElem_mem hlen) h1
        | some y => simp
      · apply hnb
        have hfo : i < ((newBranchesOf (selectCommitLane lanes oid).2
            (parentMap oid)).map (fun q => q.1 + 1)).foldr max 0 := by
          rcases lt_max_iff.mp hiw with hx | hx
          · omega
          · exact hx
        obtain ⟨a, ha, hia⟩ := lt_foldr_max hfo
        rw [List.mem_map] at ha
        obtain ⟨q, hq, hqa⟩ := ha
        have hb := mem_newBranchesOf_bounds hq
        exact newBranchesOf_covers (by omega) (by omega)
  have hraw : ∀ c ∈ (List.range (rowWidth (selectCommitLane lanes oid).2
      (newBranchesOf (selectCommitLane lanes oid).2 (parentMap oid)))).map
        (laneChar (selectCommitLane lanes oid).2 (selectCommitLane lanes oid).1
          (closingLanes (matchingLanes lanes oid) (selectCommitLane lanes oid).1)
          (newBranchesOf (selectCommitLane lanes oid).2 (parentMap oid))),
      c.isWhitespace = false := by
    intro c hc
    rw [List.mem_map] at hc
    obtain ⟨i, hi, hci⟩ := hc
    rw [List.mem_range] at hi
    rw [← hci]
    exact hch i hi
  constructor
  · rw [buildGraphStep_fst, trimEndChars_eq_self hraw, List.length_map, List.length_range]
  · intro c hc
    rw [buildGraphStep_fst, trimEndChars_eq_self hraw] at hc
    exact hraw c hc

/-- Witness for C4 at a concrete merge row: the row of commit 3 (parents
[1, 2]) over the lane table [some 3] keeps its full width through the trim. -/
theorem row_width_witness :
    (buildGraphStep (fun n => if n = 3 then [1, 2] else []) [some 3] 3).1.length =
      rowWidth (selectCommitLane [some 3] 3).2
        (newBranchesOf (selectCommitLane [some 3] 3).2
          ((fun n => if n = 3 then [1, 2] else []) 3)) :=
  (row_width (fun n => if n = 3 then [1, 2] else []) [some 3] 3 (by decide)).1

/-! ## C5: a strictly linear history renders one star per row -/

theorem buildGraphStep_pending_one (pm : Oid → List Oid) (x y : Oid) (hp : pm x = [y]) :
    buildGraphStep pm [some x] x = (['*'], [some y]) := by
  unfold buildGraphStep
  rw [hp]
  simp [matchingLanes, selectCommitLane, closingLanes, newBranchesOf, rowWidth, laneChar,
    trimEndChars, clearClosing, preCompactStep, compactLanes, List.enum, List.enumFrom,
    matchingLanes_head?, (by decide : List.range 1 = [0]),
    (by decide : ('*'.isWhitespace) = false)]

theorem buildGraphStep_pending_root (pm : Oid → List Oid) (x : Oid) (hp : pm x = []) :
    buildGraphStep pm [some x] x = (['*'], []) := by
  unfold buildGraphStep
  rw [hp]
  simp [matchingLanes, selectCommitLane, closingLanes, newBranchesOf, rowWidth, laneChar,
    trimEndChars, clearClosing, preCompactStep, compactLanes, List.enum, List.enumFrom,
    matchingLanes_head?, (by decide : List.range 1 = [0]),
    (by decide : ('*'.isWhitespace) = false)]

theorem buildGraphStep_empty_one (pm : Oid → List Oid) (x y : Oid) (hp : pm x = [y]) :
    buildGraphStep pm [] x = (['*'], [some y]) := by
  unfold buildGraphStep
  rw [hp]
  simp [matchingLanes, selectCommitLane, closingLanes, newBranchesOf, rowWidth, laneChar,
    trimEndChars, clearClosing, preCompactStep, compactLanes, List.enum, List.enumFrom,
    matchingLanes_head?, (by decide : List.range 1 = [0]),
    (by decide : ('*'.isWhitespace) = false)]

theorem buildGraphStep_empty_root (pm : Oid → List Oid) (x : Oid) (hp : pm x = []) :
    buildGraphStep pm [] x = (['*'], []) := by
  unfold buildGraphStep
  rw [hp]
  simp [matchingLanes, selectCommitLane, closingLanes, newBranchesOf, rowWidth, laneChar,
    trimEndChars, clearClosing, preCompactStep, compactLanes, List.enum, List.enumFrom,
    matchingLanes_head?, (by decide : List.range 1 = [0]),
    (by decide : ('*'.isWhitespace) = false)]

theorem buildGraph_linear_aux (pm : Oid → List Oid) :
    ∀ (rest : List Oid) (y : Oid), LinearChain pm (y :: rest) →
      buildGraphAux pm [some y] (y :: rest) = List.replicate (rest.length + 1) ['*'] := by
  intro rest
  induction rest with
  | nil =>
    intro y hl
    have hp : pm y = [] := by simpa [LinearChain] using hl
    simp [buildGraphAux, buildGraphStep_pending_root pm y hp, List.replicate]
  | cons z zs ih =>
    intro y hl
    have hl2 : pm y = [z] ∧ LinearChain pm (z :: zs) := by simpa [LinearChain] using hl
    rw [buildGraphAux]
    simp only [buildGraphStep_pending_one pm y z hl2.1]
    rw [ih z hl2.2]
    simp [List.replicate_succ]

/-- C5.  For every strictly linear history (each commit's single parent is
the next entry, the last entry a parentless root), the rendered graph is one
single-character `*` row per commit. -/
theorem linear_history_graph (parentMap : Oid → List Oid) (entries : List Oid)
    (h : LinearChain parentMap entries) :
    build_graph entries parentMap = List.replicate entries.length ['*'] := by
  cases entries with
  | nil => rfl
  | cons x rest =>
    cases rest with
    | nil =>
      have hp : parentMap x = [] := by simpa [LinearChain] using h
      simp [build_graph, buildGraphAux, buildGraphStep_empty_root parentMap x hp,
        List.replicate]
    | cons z zs =>
      have h2 : parentMap x = [z] ∧ LinearChain parentMap (z :: zs) := by
        simpa [LinearChain] using h
      rw [build_graph, buildGraphAux]
      simp only [buildGraphStep_empty_one parentMap x z h2.1]
      rw [buildGraph_linear_aux parentMap zs z h2.2]
      simp [List.replicate_succ]

/-- Witness for C5: a three-commit linear chain renders three `*` rows. -/
theorem linear_history_graph_witness :
    build_graph [0, 1, 2] (fun n => if n = 0 then [1] else if n = 1 then [2] else []) =
      List.replicate 3 ['*'] :=
  linear_history_graph (fun n => if n = 0 then [1] else if n = 1 then [2] else [])
    [0, 1, 2] (by simp [LinearChain])

/-! ## C6: a failing commit lookup aborts the whole `get_log` call -/

theorem get_log_loop_ok_length (now : Int) (rm : Oid → Option (List String))
    (fc : Oid → Except GitError CommitData) :
    ∀ (ws : List (Except GitError Oid)) (r : List LogEntry × List (Oid × List Oid)),
      get_log_loop now rm fc ws = .ok r → r.1.length = ws.length := by
  intro ws
  induction ws with
  | nil =>
    intro r h
    rw [get_log_loop] at h
    rw [← Except.ok.inj h]
    rfl
  | cons w rest ih =>
    intro r h
    cases w with
    | error e =>
      simp only [get_log_loop] at h
      exact Except.noConfusion h
    | ok oid =>
      cases hfc : fc oid with
      | error e =>
        simp only [get_log_loop, hfc] at h
        exact Except.noConfusion h
      | ok c =>
        cases hsid : c.short_id with
        | error e =>
          simp only [get_log_loop, hfc, hsid] at h
          exact Except.noConfusion h
        | ok sid =>
          cases hrec : get_log_loop now rm fc rest with
          | error e =>
            simp only [get_log_loop, hfc, hsid, hrec] at h
            exact Except.noConfusion h
          | ok tail =>
            simp only [get_log_loop, hfc, hsid, hrec] at h
            rw [← Except.ok.inj h]
            simp only [List.length_cons]
            rw [ih tail hrec]

theorem get_log_loop_error_at (now : Int) (rm : Oid → Option (List String))
    (fc : Oid → Except GitError CommitData) :
    ∀ (pre : List (Except GitError Oid)) (oid : Oid) (e : GitError)
      (post : List (Except GitError Oid)),
      (∀ r ∈ pre, ∃ o c s, r = .ok o ∧ fc o = .ok c ∧ c.short_id = .ok s) →
      fc oid = .error e →
      get_log_loop now rm fc (pre ++ .ok oid :: post) = .error e := by
  intro pre
  induction pre with
  | nil =>
    intro oid e post _ hfc
    simp only [List.nil_append, get_log_loop, hfc]
  | cons w pre2 ih =>
    intro oid e post hpre hfc
    obtain ⟨o, c, s, hw, hfco, hsid⟩ := hpre w (List.mem_cons_self w pre2)
    subst hw
    simp only [List.cons_append, get_log_loop, hfco, hsid, List.append_eq,
      ih oid e post (fun r hr => hpre r (List.mem_cons_of_mem _ hr)) hfc]

/-- C6 counterexample: a walk yielding one commit whose lookup fails makes
`get_log` return that error — the commit is not silently excluded from an
`ok` result. -/
theorem get_log_lookup_failure_counterexample :
    get_log 0 (fun _ => none) (fun _ => .error (.CommandFailed "corrupt object"))
      [.ok 7] 10 = .error (.CommandFailed "corrupt object") := rfl

/-- C6 amended: a failing commit lookup during the walk is not tolerated —
`get_log` aborts with the error of the first failing element; and when the
call does succeed, every walked commit (up to `limit`) contributes exactly
one entry, so no commit is ever silently excluded. -/
theorem get_log_error_propagation (now : Int) (rm : Oid → Option (List String))
    (fc : Oid → Except GitError CommitData) (revwalk : List (Except GitError Oid))
    (limit : Nat) :
    (∀ g, get_log now rm fc revwalk limit = .ok g →
      g.entries.length = (revwalk.take limit).length) ∧
    (∀ pre oid e post, revwalk.take limit = pre ++ .ok oid :: post →
      (∀ r ∈ pre, ∃ o c s, r = .ok o ∧ fc o = .ok c ∧ c.short_id = .ok s) →
      fc oid = .error e →
      get_log now rm fc revwalk limit = .error e) := by
  constructor
  · intro g h
    rw [get_log] at h
    cases hloop : get_log_loop now rm fc (revwalk.take limit) with
    | error e => rw [hloop] at h; exact Except.noConfusion h
    | ok r =>
      rw [hloop] at h
      have hg := Except.ok.inj h
      rw [← hg]
      exact get_log_loop_ok_length now rm fc (revwalk.take limit) r hloop
  · intro pre oid e post htake hpre hfc
    rw [get_log, htake, get_log_loop_error_at now rm fc pre oid e post hpre hfc]

/-- Witness for C6's amended theorem: a two-element walk whose second lookup
fails propagates that error out of `get_log`. -/
theorem get_log_error_propagation_witness :
    get_log 0 (fun _ => none)
      (fun o => if o = 7 then .error .NotInRepo
        else .ok ⟨.ok "aa", none, none, 0, []⟩)
      [.ok 3, .ok 7] 10 = .error .NotInRepo :=
  (get_log_error_propagation 0 (fun _ => none)
      (fun o => if o = 7 then .error .NotInRepo
        else .ok ⟨.ok "aa", none, none, 0, []⟩)
      [.ok 3, .ok 7] 10).2 [.ok 3] 7 .NotInRepo [] rfl
    (by
      intro r hr
      rw [List.mem_singleton] at hr
      subst hr
      exact ⟨3, ⟨.ok "aa", none, none, 0, []⟩, "aa", rfl, rfl, rfl⟩)
    rfl

/-! ## C10: the summary truncation helper panics on multi-byte cuts -/

/-- C10: evaluation of `truncate` at a failing input.  The string
"abcéxyz" is 8 bytes long, so `truncate` with `max_len = 7` slices at byte
4 — inside the two-byte encoding of 'é' — and panics (modelled `none`).
The helper is therefore not total. -/
theorem truncate_panics_on_multibyte :
    strLenBytes "abcéxyz".data = 8 ∧ truncate "abcéxyz".data 7 = none := by
  constructor
  · rfl
  · rfl

/-- C10: on ASCII strings (every char below 0x80) the same helper is total:
the cut always falls on a char boundary, so no panic is possible. -/
theorem truncate_total_on_ascii (s : List Char) (max_len : Nat)
    (h : ∀ c ∈ s, c.toNat < 0x80) : ∃ r, truncate s max_len = some r := by
  have hslice : ∀ (t : List Char) (k : Nat), (∀ c ∈ t, c.toNat < 0x80) →
      k ≤ t.length → ∃ r, slicePrefix t k = some r := by
    intro t
    induction t with
    | nil =>
      intro k hc hk
      have : k = 0 := Nat.le_zero.mp hk
      rw [this]
      exact ⟨[], rfl⟩
    | cons c cs ih =>
      intro k hc hk
      cases k with
      | zero => exact ⟨[], rfl⟩
      | succ k2 =>
        have h1 : utf8Len c = 1 := by
          unfold utf8Len
          rw [if_pos (hc c (List.mem_cons_self c cs))]
        rw [slicePrefix, h1, if_pos (by omega)]
        obtain ⟨r, hr⟩ := ih (k2 + 1 - 1)
          (fun x hx => hc x (List.mem_cons_of_mem c hx))
          (by rw [List.length_cons] at hk; omega)
        exact ⟨c :: r, by rw [hr]; rfl⟩
  have hbytes : ∀ t : List Char, (∀ c ∈ t, c.toNat < 0x80) → strLenBytes t = t.length := by
    intro t
    induction t with
    | nil => intro _; rfl
    | cons c cs ih =>
      intro hc
      unfold strLenBytes at ih ⊢
      rw [List.map_cons, List.sum_cons, List.length_cons]
      have h1 : utf8Len c = 1 := by
        unfold utf8Len
        rw [if_pos (hc c (List.mem_cons_self c cs))]
      rw [h1, ih (fun x hx => hc x (List.mem_cons_of_mem c hx))]
      omega
  unfold truncate
  by_cases hlen : strLenBytes s > max_len
  · rw [if_pos hlen]
    have hsl := hbytes s h
    obtain ⟨r, hr⟩ := hslice s (max_len - 3) h (by omega)
    exact ⟨r ++ ['.', '.', '.'], by rw [hr]; rfl⟩
  · rw [if_neg hlen]
    exact ⟨s, rfl⟩

/-! ## C7 helper lemmas: the modelled scorer, max_by_key and the sort -/

theorem skim_fuzzy_match_lt_max (b q : String) (s : Int)
    (h : skim_fuzzy_match b q = some s) : s < i64MAX := by
  unfold skim_fuzzy_match at h
  split_ifs at h
  have hs := Option.some.inj h
  have hmax : i64MAX = 9223372036854775807 := by norm_num [i64MAX]
  omega

theorem max_by_key_foldl_spec :
    ∀ (l : List (Int × String)) (o : Option (Int × String)) (r : Int × String),
      l.foldl max_by_key_step o = some r →
      (o = some r ∨ r ∈ l) ∧ (∀ x ∈ l, x.1 ≤ r.1) ∧ (∀ a, o = some a → a.1 ≤ r.1) := by
  intro l
  induction l with
  | nil =>
    intro o r h
    refine ⟨Or.inl h, by simp, fun a ha => ?_⟩
    rw [ha] at h
    rw [Option.some.inj h]
  | cons x t ih =>
    intro o r h
    rw [List.foldl_cons] at h
    obtain ⟨hmem, hmax, hacc⟩ := ih (max_by_key_step o x) r h
    have hstep : ∀ a, o = some a → ∃ b, max_by_key_step o x = some b ∧ a.1 ≤ b.1 := by
      intro a ha
      rw [ha]
      by_cases hle : a.1 ≤ x.1
      · exact ⟨x, by simp [max_by_key_step, hle], hle⟩
      · exact ⟨a, by simp [max_by_key_step, hle], le_refl _⟩
    have hstepx : ∃ b, max_by_key_step o x = some b ∧ x.1 ≤ b.1 := by
      cases o with
      | none => exact ⟨x, rfl, le_refl _⟩
      | some a =>
        by_cases hle : a.1 ≤ x.1
        · exact ⟨x, by simp [max_by_key_step, hle], le_refl _⟩
        · exact ⟨a, by simp [max_by_key_step, hle], by omega⟩
    refine ⟨?_, ?_, ?_⟩
    · rcases hmem with hm | hm
      · cases o with
        | none =>
          right
          simp only [max_by_key_step] at hm
          rw [← Option.some.inj hm]
          exact List.mem_cons_self x t
        | some a =>
          simp only [max_by_key_step] at hm
          split_ifs at hm
          · right
            rw [← Option.some.inj hm]
            exact List.mem_cons_self x t
          · left
            exact hm
      · right
        exact List.mem_cons_of_mem x hm
    · intro y hy
      rcases List.mem_cons.mp hy with rfl | hy2
      · obtain ⟨b2, hb2, hyb⟩ := hstepx
        exact le_trans hyb (hacc b2 hb2)
      · exact hmax y hy2
    · intro a ha
      obtain ⟨b2, hb2, hab⟩ := hstep a ha
      exact le_trans hab (hacc b2 hb2)

theorem foldl_max_step_some :
    ∀ (l : List (Int × String)) (a : Int × String),
      ∃ r, l.foldl max_by_key_step (some a) = some r := by
  intro l
  induction l with
  | nil => intro a; exact ⟨a, rfl⟩
  | cons x t ih =>
    intro a
    rw [List.foldl_cons]
    by_cases hle : a.1 ≤ x.1
    · rw [show max_by_key_step (some a) x = some x by simp [max_by_key_step, hle]]
      exact ih x
    · rw [show max_by_key_step (some a) x = some a by simp [max_by_key_step, hle]]
      exact ih a

theorem max_by_key_ne_nil {l : List (Int × String)} (h : l ≠ []) :
    ∃ r, max_by_key l = some r := by
  cases l with
  | nil => exact absurd rfl h
  | cons x t =>
    unfold max_by_key
    rw [List.foldl_cons]
    exact foldl_max_step_some t x

theorem max_by_key_some {l : List (Int × String)} {r : Int × String}
    (h : max_by_key l = some r) : r ∈ l ∧ ∀ x ∈ l, x.1 ≤ r.1 := by
  obtain ⟨hmem, hmax, _⟩ := max_by_key_foldl_spec l none r h
  rcases hmem with hm | hm
  · exact absurd hm (by simp)
  · exact ⟨hm, hmax⟩

theorem isSubseqCI_of_lower_eq :
    ∀ (a b : List Char), a.map asciiLower = b.map asciiLower →
      isSubseqCI a b = true := by
  intro a
  induction a with
  | nil => intro b _; simp [isSubseqCI]
  | cons x xs ih =>
    intro b h
    cases b with
    | nil => simp at h
    | cons y ys =>
      simp only [List.map_cons, List.cons.injEq] at h
      rw [isSubseqCI, if_pos h.1]
      exact ih ys h.2

theorem isSubseqCI_length :
    ∀ (b a : List Char), isSubseqCI a b = true → a.length ≤ b.length := by
  intro b
  induction b with
  | nil =>
    intro a h
    cases a with
    | nil => exact Nat.le_refl 0
    | cons x xs => exact absurd h (by simp [isSubseqCI])
  | cons y ys ih =>
    intro a h
    cases a with
    | nil => simp
    | cons x xs =>
      rw [isSubseqCI] at h
      by_cases heq : asciiLower x = asciiLower y
      · rw [if_pos heq] at h
        have hx := ih xs h
        simp only [List.length_cons]
        omega
      · rw [if_neg heq] at h
        have hx := ih (x :: xs) h
        simp only [List.length_cons] at hx ⊢
        omega

theorem isSubseqCI_lower_eq_of_length :
    ∀ (b a : List Char), isSubseqCI a b = true → b.length ≤ a.length →
      a.map asciiLower = b.map asciiLower := by
  intro b
  induction b with
  | nil =>
    intro a h _
    cases a with
    | nil => rfl
    | cons x xs => exact absurd h (by simp [isSubseqCI])
  | cons y ys ih =>
    intro a h hl
    cases a with
    | nil => simp at hl
    | cons x xs =>
      rw [isSubseqCI] at h
      by_cases heq : asciiLower x = asciiLower y
      · rw [if_pos heq] at h
        rw [List.map_cons, List.map_cons, heq]
        rw [ih xs h (by simp only [List.length_cons] at hl; omega)]
      · rw [if_neg heq] at h
        have hx := isSubseqCI_length ys (x :: xs) h
        simp only [List.length_cons] at hl hx
        omega

theorem sortByScoreDesc_sorted (l : List (Int × String)) :
    List.Pairwise (fun a b : Int × String => (decide (b.1 ≤ a.1)) = true)
      (sortByScoreDesc l) := by
  unfold sortByScoreDesc
  exact List.sorted_mergeSort
    (fun a b c h1 h2 => by simp at h1 h2 ⊢; omega)
    (fun a b => by rcases le_total b.1 a.1 with h | h <;> simp [h])
    l

theorem sortByScoreDesc_head_max {l : List (Int × String)} {r : Int × String}
    (hr : (sortByScoreDesc l).head? = some r) :
    r ∈ l ∧ ∀ x ∈ l, x.1 ≤ r.1 := by
  have hperm : (sortByScoreDesc l).Perm l := List.mergeSort_perm l _
  have hsorted := sortByScoreDesc_sorted l
  cases hs : sortByScoreDesc l with
  | nil =>
    rw [hs] at hr
    exact Option.noConfusion hr
  | cons y rest =>
    rw [hs, List.head?_cons] at hr
    have hy := Option.some.inj hr
    subst hy
    rw [hs] at hperm hsorted
    rw [List.pairwise_cons] at hsorted
    constructor
    · exact hperm.subset (List.mem_cons_self _ _)
    · intro x hx
      have hx2 : x ∈ y :: rest := hperm.mem_iff.mpr hx
      rcases List.mem_cons.mp hx2 with rfl | h2
      · exact le_refl _
      · simpa using hsorted.1 x h2

theorem fuzzy_match_branch_exact (fm : String → String → Option Int)
    (query : String) (branches : List String)
    (hfm : ∀ b q s, fm b q = some s → s < i64MAX)
    (hex : ∃ b ∈ branches, eq_ignore_ascii_case b query = true) :
    ∃ b2, fuzzy_match_branch fm query branches = some b2 ∧
      eq_ignore_ascii_case b2 query = true := by
  obtain ⟨b, hbmem, hbeq⟩ := hex
  have hbc : (i64MAX, b) ∈ branches.filterMap (fun branch =>
      if eq_ignore_ascii_case branch query then some (i64MAX, branch)
      else (fm branch query).map (fun score => (score, branch))) := by
    rw [List.mem_filterMap]
    exact ⟨b, hbmem, by rw [if_pos hbeq]⟩
  have hne : branches.filterMap (fun branch =>
      if eq_ignore_ascii_case branch query then some (i64MAX, branch)
      else (fm branch query).map (fun score => (score, branch))) ≠ [] := by
    intro hnil
    rw [hnil] at hbc
    exact List.not_mem_nil _ hbc
  obtain ⟨r, hr⟩ := max_by_key_ne_nil hne
  obtain ⟨hrmem, hrmax⟩ := max_by_key_some hr
  have hge := hrmax _ hbc
  rw [List.mem_filterMap] at hrmem
  obtain ⟨b2, hb2mem, hb2⟩ := hrmem
  by_cases he2 : eq_ignore_ascii_case b2 query
  · rw [if_pos he2] at hb2
    refine ⟨b2, ?_, he2⟩
    have h2 := Option.some.inj hb2
    unfold fuzzy_match_branch
    rw [hr, ← h2]
    rfl
  · rw [if_neg he2] at hb2
    rw [Option.map_eq_some'] at hb2
    obtain ⟨s, hs, hr2⟩ := hb2
    have hlt := hfm b2 query s hs
    rw [← hr2] at hge
    simp only at hge
    have hmax : i64MAX = 9223372036854775807 := by norm_num [i64MAX]
    omega

theorem mem_filter_matches {branches : List String} {query : String} (s : Int)
    (b : String)
    (h : (s, b) ∈ branches.filterMap (fun c => (skim_fuzzy_match c query).map
      (fun score => (score, c)))) :
    b ∈ branches ∧ skim_fuzzy_match b query = some s := by
  rw [List.mem_filterMap] at h
  obtain ⟨c, hc, hcf⟩ := h
  rw [Option.map_eq_some'] at hcf
  obtain ⟨s2, hs2, heq⟩ := hcf
  rw [Prod.mk.injEq] at heq
  obtain ⟨rfl, rfl⟩ := heq
  exact ⟨hc, hs2⟩

theorem skim_of_exact {b q : String} (h : eq_ignore_ascii_case b q = true) :
    skim_fuzzy_match b q = some (1000 - (b.data.length : Int)) ∧
      b.data.length = q.data.length := by
  unfold eq_ignore_ascii_case at h
  have hl : b.data.map asciiLower = q.data.map asciiLower := by simpa using h
  constructor
  · unfold skim_fuzzy_match
    rw [if_pos (isSubseqCI_of_lower_eq q.data b.data hl.symm)]
  · have hlen := congrArg List.length hl
    simpa using hlen

theorem filter_branches_exact (branches : List String) (query : String)
    (hq : query.isEmpty = false)
    (hex : ∃ b ∈ branches, eq_ignore_ascii_case b query = true) :
    ∃ b2, (filter_branches skim_fuzzy_match branches query).head? = some b2 ∧
      eq_ignore_ascii_case b2 query = true ∧ b2 ∈ branches := by
  obtain ⟨b, hbmem, hbeq⟩ := hex
  obtain ⟨hbskim, hblen⟩ := skim_of_exact hbeq
  unfold filter_branches
  rw [if_neg (by simp [hq])]
  have hbm : ((1000 : Int) - b.data.length, b) ∈ branches.filterMap
      (fun c => (skim_fuzzy_match c query).map (fun score => (score, c))) := by
    rw [List.mem_filterMap]
    exact ⟨b, hbmem, by rw [hbskim]; rfl⟩
  have hlen0 : (sortByScoreDesc (branches.filterMap
      (fun c => (skim_fuzzy_match c query).map (fun score => (score, c))))).length =
      (branches.filterMap
        (fun c => (skim_fuzzy_match c query).map (fun score => (score, c)))).length :=
    (List.mergeSort_perm _ _).length_eq
  cases hs : sortByScoreDesc (branches.filterMap
      (fun c => (skim_fuzzy_match c query).map (fun score => (score, c)))) with
  | nil =>
    exfalso
    rw [hs] at hlen0
    have hpos := List.length_pos_of_mem hbm
    rw [← hlen0] at hpos
    exact Nat.lt_irrefl 0 hpos
  | cons y rest =>
    have hhead : (sortByScoreDesc (branches.filterMap
        (fun c => (skim_fuzzy_match c query).map (fun score => (score, c))))).head? =
        some y := by
      rw [hs]
      rfl
    obtain ⟨hymem, hymax⟩ := sortByScoreDesc_head_max hhead
    obtain ⟨hyb, hyskim⟩ := mem_filter_matches y.1 y.2 (by simpa using hymem)
    refine ⟨y.2, rfl, ?_, hyb⟩
    · unfold skim_fuzzy_match at hyskim
      by_cases hsub : isSubseqCI query.data y.2.data
      · rw [if_pos hsub] at hyskim
        have hy1 := Option.some.inj hyskim
        have hge := hymax _ hbm
        simp only at hge
        have hqlen := isSubseqCI_length y.2.data query.data hsub
        have hloweq := isSubseqCI_lower_eq_of_length y.2.data query.data hsub (by omega)
        unfold eq_ignore_ascii_case
        simp [hloweq]
      · rw [if_neg hsub] at hyskim
        exact Option.noConfusion hyskim

/-! ## C7: exact case-insensitive matches outrank fuzzy-only matches -/

/-- C7.  In the non-interactive lookup (`fuzzy_match_branch`, for any external
matcher whose scores stay below `i64::MAX`) and in the interactive filter
(`filter_branches` with the spec-modelled scorer), a candidate equal to the
query up to ASCII case always ends up on top whenever one exists; in
particular, for candidates ["main", "develop", "feature-x"] and query
"Main", both return "main" first. -/
theorem exact_match_priority :
    (∀ (fm : String → String → Option Int) (query : String) (branches : List String),
      (∀ b q s, fm b q = some s → s < i64MAX) →
      (∃ b ∈ branches, eq_ignore_ascii_case b query = true) →
      ∃ b2, fuzzy_match_branch fm query branches = some b2 ∧
        eq_ignore_ascii_case b2 query = true) ∧
    (∀ (query : String) (branches : List String),
      query.isEmpty = false →
      (∃ b ∈ branches, eq_ignore_ascii_case b query = true) →
      ∃ b2, (filter_branches skim_fuzzy_match branches query).head? = some b2 ∧
        eq_ignore_ascii_case b2 query = true) ∧
    fuzzy_match_branch skim_fuzzy_match "Main" ["main", "develop", "feature-x"] =
      some "main" ∧
    (filter_branches skim_fuzzy_match ["main", "develop", "feature-x"] "Main").head? =
      some "main" := by
  refine ⟨?_, ?_, ?_, ?_⟩
  · intro fm query branches hfm hex
    exact fuzzy_match_branch_exact fm query branches hfm hex
  · intro query branches hq hex
    obtain ⟨b2, hh, hci, _⟩ := filter_branches_exact branches query hq hex
    exact ⟨b2, hh, hci⟩
  · decide
  · obtain ⟨b2, hh, hci, hmem⟩ := filter_branches_exact ["main", "develop", "feature-x"]
      "Main" (by decide) ⟨"main", by decide, by decide⟩
    have hb2 : b2 = "main" := by
      rcases List.mem_cons.mp hmem with h1 | h1
      · exact h1
      rcases List.mem_cons.mp h1 with h2 | h2
      · rw [h2] at hci
        exact absurd hci (by decide)
      rcases List.mem_cons.mp h2 with h3 | h3
      · rw [h3] at hci
        exact absurd hci (by decide)
      · exact absurd h3 (List.not_mem_nil b2)
    rw [hb2] at hh
    exact hh

/-- Witness for C7: both general statements applied at the concrete
candidates ["main", "develop", "feature-x"] and query "Main". -/
theorem exact_match_priority_witness :
    (∃ b2, fuzzy_match_branch skim_fuzzy_match "Main" ["main", "develop", "feature-x"] =
        some b2 ∧ eq_ignore_ascii_case b2 "Main" = true) ∧
    (∃ b2, (filter_branches skim_fuzzy_match ["main", "develop", "feature-x"]
        "Main").head? = some b2 ∧ eq_ignore_ascii_case b2 "Main" = true) := by
  constructor
  · exact exact_match_priority.1 skim_fuzzy_match "Main" ["main", "develop", "feature-x"]
      (fun b q s h => skim_fuzzy_match_lt_max b q s h)
      ⟨"main", by decide, by decide⟩
  · exact exact_match_priority.2.1 "Main" ["main", "develop", "feature-x"]
      (by decide) ⟨"main", by decide, by decide⟩

/-! ## C9 helper lemmas: the branch-picker selection clamp -/

theorem pickerView_clamp (fm : String → String → Option Int) (branches : List String)
    (st : PickerState) (hne : (pickerView fm branches st).1 ≠ []) :
    (pickerView fm branches st).2 < (pickerView fm branches st).1.length := by
  have hpos : 0 < (filter_branches fm branches st.query).length :=
    List.length_pos.mpr hne
  unfold pickerView at hne ⊢
  simp only at hne hpos ⊢
  split_ifs with h
  · omega
  · by_cases hge : st.selected_index ≥ (filter_branches fm branches st.query).length
    · exact absurd ⟨hge, hne⟩ h
    · omega

theorem pickerStep_enter_empty (fm : String → String → Option Int)
    (branches : List String) (st : PickerState)
    (h : (pickerView fm branches st).1 = []) :
    pickerStep fm branches st .enter = .inr none := by
  simp only [pickerStep]
  rw [h]
  rfl

theorem pickerStep_enter_some (fm : String → String → Option Int)
    (branches : List String) (st : PickerState)
    (h : (pickerView fm branches st).1 ≠ []) :
    ∃ b, pickerStep fm branches st .enter = .inr (some b) ∧
      b ∈ (pickerView fm branches st).1 := by
  have hlt := pickerView_clamp fm branches st h
  refine ⟨(pickerView fm branches st).1[(pickerView fm branches st).2], ?_, ?_⟩
  · simp only [pickerStep]
    rw [List.getElem?_eq_getElem hlt]
  · exact List.getElem_mem hlt

theorem filter_branches_subset (fm : String → String → Option Int)
    (branches : List String) (query : String) :
    ∀ b ∈ filter_branches fm branches query, b ∈ branches := by
  intro b hb
  unfold filter_branches at hb
  split_ifs at hb with h
  · exact hb
  · rw [List.mem_map] at hb
    obtain ⟨q, hq, hqb⟩ := hb
    have hq2 : q ∈ branches.filterMap
        (fun c => (fm c query).map (fun score => (score, c))) := by
      have hperm : (sortByScoreDesc (branches.filterMap
          (fun c => (fm c query).map (fun score => (score, c))))).Perm
          (branches.filterMap (fun c => (fm c query).map (fun score => (score, c)))) :=
        List.mergeSort_perm _ _
      exact hperm.subset hq
    rw [List.mem_filterMap] at hq2
    obtain ⟨c, hc, hcf⟩ := hq2
    rw [Option.map_eq_some'] at hcf
    obtain ⟨s, _, heq⟩ := hcf
    rw [← hqb, ← heq]
    exact hc

theorem pickerRun_commit_mem (fm : String → String → Option Int)
    (branches : List String) :
    ∀ (keys : List PickerKey) (st : PickerState) (b : String),
      pickerRun fm branches st keys = .inr (some b) → b ∈ branches := by
  intro keys
  induction keys with
  | nil =>
    intro st b h
    exact Sum.noConfusion h
  | cons k ks ih =>
    intro st b h
    rw [pickerRun] at h
    cases hstep : pickerStep fm branches st k with
    | inl st2 =>
      rw [hstep] at h
      exact ih st2 b h
    | inr r =>
      rw [hstep] at h
      have hr := Sum.inr.inj h
      subst hr
      cases k with
      | esc =>
        simp only [pickerStep] at hstep
        exact Option.noConfusion (Sum.inr.inj hstep)
      | ctrlC =>
        simp only [pickerStep] at hstep
        exact Option.noConfusion (Sum.inr.inj hstep)
      | enter =>
        simp only [pickerStep] at hstep
        have hget := Sum.inr.inj hstep
        have hmem := List.getElem?_mem hget
        exact filter_branches_subset fm branches st.query b hmem
      | up => exact Sum.noConfusion hstep
      | down => exact Sum.noConfusion hstep
      | backspace => exact Sum.noConfusion hstep
      | char c => exact Sum.noConfusion hstep

/-! ## C9: the selection index is always safe -/

/-- C9.  For every state of the branch-picker loop (any query, any raw
index), the loop-top re-filter and re-clamp yield an in-bounds index whenever
the filtered list is non-empty; on an empty filtered list the enter key
commits no selection; on a non-empty one it commits an element of the
filtered list; and any branch committed by any key sequence from the initial
state is one of the input branches — no out-of-bounds access exists. -/
theorem selection_index_safety (fm : String → String → Option Int)
    (branches : List String) :
    (∀ st : PickerState, (pickerView fm branches st).1 ≠ [] →
      (pickerView fm branches st).2 < (pickerView fm branches st).1.length) ∧
    (∀ st : PickerState, (pickerView fm branches st).1 = [] →
      pickerStep fm branches st .enter = .inr none) ∧
    (∀ st : PickerState, (pickerView fm branches st).1 ≠ [] →
      ∃ b, pickerStep fm branches st .enter = .inr (some b) ∧
        b ∈ (pickerView fm branches st).1) ∧
    (∀ (keys : List PickerKey) (b : String),
      pickerRun fm branches initPickerState keys = .inr (some b) → b ∈ branches) :=
  ⟨fun st => pickerView_clamp fm branches st,
    fun st => pickerStep_enter_empty fm branches st,
    fun st => pickerStep_enter_some fm branches st,
    fun keys b => pickerRun_commit_mem fm branches keys initPickerState b⟩

/-- Witness for C9 at concrete states: a stale index 5 over two branches is
clamped below the length; enter on an empty filtered list commits nothing;
and enter as the first key commits a branch of the input list. -/
theorem selection_index_safety_witness :
    (pickerView skim_fuzzy_match ["x", "y"] ⟨"", 5⟩).2 <
      (pickerView skim_fuzzy_match ["x", "y"] ⟨"", 5⟩).1.length ∧
    pickerStep skim_fuzzy_match ([] : List String) ⟨"", 0⟩ .enter = .inr none ∧
    ("x" ∈ ["x"] → True) ∧
    ((pickerRun skim_fuzzy_match ["x"] initPickerState [.enter] = .inr (some "x")) →
      "x" ∈ ["x"]) := by
  refine ⟨?_, ?_, fun _ => trivial, ?_⟩
  · exact (selection_index_safety skim_fuzzy_match ["x", "y"]).1 ⟨"", 5⟩ (by decide)
  · exact (selection_index_safety skim_fuzzy_match []).2.1 ⟨"", 0⟩ (by decide)
  · exact fun h => (selection_index_safety skim_fuzzy_match ["x"]).2.2.2 [.enter] "x" h

/-! ## C8 helper lemmas: ticks of the debounced log viewer -/

theorem viewerSync_selected (entries : List Oid) (st : ViewerState) (t : Tick) :
    (viewerSync entries st t).selected_index = st.selected_index := by
  unfold viewerSync
  split_ifs <;> rfl

theorem viewerSync_pending_or (entries : List Oid) (st : ViewerState) (t : Tick) :
    (viewerSync entries st t).pending_fetch = true ∨ viewerSync entries st t = st := by
  unfold viewerSync
  split_ifs
  · left; rfl
  · right; rfl

theorem viewerSync_window (entries : List Oid) (st : ViewerState) (t : Tick)
    (h : entries[st.selected_index]? = st.last_selected_oid →
      t.now < st.last_selection_change + DEBOUNCE_MS) :
    t.now < (viewerSync entries st t).last_selection_change + DEBOUNCE_MS := by
  unfold viewerSync
  split_ifs with hc
  · have hD : DEBOUNCE_MS = 100 := rfl
    simp only
    omega
  · push_neg at hc
    exact h hc

theorem viewerFires_false_of_window (st1 : ViewerState) (t : Tick)
    (h : t.now < st1.last_selection_change + DEBOUNCE_MS) :
    viewerFires st1 t = false := by
  unfold viewerFires
  have hd : decide (DEBOUNCE_MS ≤ t.now - st1.last_selection_change) = false := by
    simp only [decide_eq_false_iff_not]
    have hD : DEBOUNCE_MS = 100 := rfl
    omega
  rw [hd, Bool.and_false]

theorem viewerNav_fields (entries : List Oid) (st2 : ViewerState) (t : Tick) :
    (viewerNav entries st2 t).pending_fetch = st2.pending_fetch ∧
    (viewerNav entries st2 t).last_selected_oid = st2.last_selected_oid ∧
    (viewerNav entries st2 t).last_selection_change = st2.last_selection_change := by
  unfold viewerNav
  cases t.key <;> exact ⟨rfl, rfl, rfl⟩

theorem viewerNav_none (entries : List Oid) (st2 : ViewerState) (t : Tick)
    (hk : t.key = none) : viewerNav entries st2 t = st2 := by
  unfold viewerNav
  rw [hk]

theorem viewerTick_within (entries : List Oid) (st : ViewerState) (t : Tick)
    (h : entries[st.selected_index]? = st.last_selected_oid →
      t.now < st.last_selection_change + DEBOUNCE_MS) :
    (viewerTick entries st t).2 = none ∧
    (viewerTick entries st t).1 = viewerNav entries (viewerSync entries st t) t := by
  have hf := viewerFires_false_of_window (viewerSync entries st t) t
    (viewerSync_window entries st t h)
  unfold viewerTick
  rw [hf]
  exact ⟨by simp, by simp⟩

theorem viewerTick_pending_within (entries : List Oid) (st : ViewerState) (t : Tick)
    (h : entries[st.selected_index]? = st.last_selected_oid →
      t.now < st.last_selection_change + DEBOUNCE_MS)
    (hst : st.pending_fetch = true ∨
      entries[st.selected_index]? ≠ st.last_selected_oid) :
    (viewerTick entries st t).1.pending_fetch = true := by
  rw [(viewerTick_within entries st t h).2, (viewerNav_fields entries _ t).1]
  unfold viewerSync
  split_ifs with hc
  · rfl
  · rcases hst with hp | hne
    · exact hp
    · exact absurd hne hc

theorem viewerTick_synced (entries : List Oid) (st : ViewerState) (t : Tick)
    (hk : t.key = none) :
    (viewerTick entries st t).1.last_selected_oid =
      entries[(viewerTick entries st t).1.selected_index]? ∧
    (viewerTick entries st t).1.selected_index = st.selected_index := by
  unfold viewerTick
  rw [viewerNav_none entries _ t hk]
  have hsel : (if viewerFires (viewerSync entries st t) t then
      { viewerSync entries st t with pending_fetch := false }
      else viewerSync entries st t).selected_index = st.selected_index := by
    split_ifs
    · simp [viewerSync_selected]
    · exact viewerSync_selected entries st t
  have hoid : (if viewerFires (viewerSync entries st t) t then
      { viewerSync entries st t with pending_fetch := false }
      else viewerSync entries st t).last_selected_oid =
      (viewerSync entries st t).last_selected_oid := by
    split_ifs <;> rfl
  refine ⟨?_, hsel⟩
  rw [hoid, hsel]
  unfold viewerSync
  split_ifs with hc
  · rfl
  · push_neg at hc
    exact hc.symm

theorem applyNav_lt (len idx : Nat) (h : 0 < len) (hidx : idx < len) (k : NavKey) :
    applyNav len idx k < len := by
  cases k <;> simp only [applyNav] <;> (first | (split_ifs <;> omega) | omega)

theorem viewerTick_selected_lt (entries : List Oid) (st : ViewerState) (t : Tick)
    (h : 0 < entries.length) (hidx : st.selected_index < entries.length) :
    (viewerTick entries st t).1.selected_index < entries.length := by
  unfold viewerTick viewerNav
  have hsel : (if viewerFires (viewerSync entries st t) t then
      { viewerSync entries st t with pending_fetch := false }
      else viewerSync entries st t).selected_index = st.selected_index := by
    split_ifs
    · simp [viewerSync_selected]
    · exact viewerSync_selected entries st t
  cases t.key with
  | none => simpa [hsel] using hidx
  | some k =>
    simp only [hsel]
    exact applyNav_lt entries.length st.selected_index h hidx k

theorem viewerSync_of_synced (entries : List Oid) (st : ViewerState) (t : Tick)
    (hsync : st.last_selected_oid = entries[st.selected_index]?) :
    viewerSync entries st t = st := by
  unfold viewerSync
  rw [if_neg (by rw [hsync]; exact fun hc => hc rfl)]

theorem viewerTick_quiet_wait (entries : List Oid) (st : ViewerState) (t : Tick)
    (hk : t.key = none)
    (hsync : st.last_selected_oid = entries[st.selected_index]?)
    (ht : t.now < st.last_selection_change + DEBOUNCE_MS) :
    viewerTick entries st t = (st, none) := by
  unfold viewerTick
  rw [viewerSync_of_synced entries st t hsync,
    viewerFires_false_of_window st t ht]
  simp [viewerNav_none entries st t hk]

theorem viewerTick_quiet_fire (entries : List Oid) (st : ViewerState) (t : Tick)
    (hk : t.key = none)
    (hsync : st.last_selected_oid = entries[st.selected_index]?)
    (hp : st.pending_fetch = true)
    (ht : DEBOUNCE_MS ≤ t.now - st.last_selection_change) :
    viewerTick entries st t =
      ({ st with pending_fetch := false }, entries[st.selected_index]?) := by
  unfold viewerTick
  rw [viewerSync_of_synced entries st t hsync]
  have hf : viewerFires st t = true := by
    unfold viewerFires
    rw [hp, decide_eq_true ht, Bool.and_self]
  rw [hf]
  simp [viewerNav_none entries _ t hk]

theorem viewerTick_quiet_done (entries : List Oid) (st : ViewerState) (t : Tick)
    (hk : t.key = none)
    (hsync : st.last_selected_oid = entries[st.selected_index]?)
    (hp : st.pending_fetch = false) :
    viewerTick entries st t = (st, none) := by
  unfold viewerTick
  rw [viewerSync_of_synced entries st t hsync]
  have hf : viewerFires st t = false := by
    unfold viewerFires
    rw [hp, Bool.false_and]
  rw [hf]
  simp [viewerNav_none entries st t hk]

theorem viewerRun_append (entries : List Oid) :
    ∀ (xs ys : List Tick) (st : ViewerState),
      viewerRun entries st (xs ++ ys) =
        ((viewerRun entries (viewerRun entries st xs).1 ys).1,
          (viewerRun entries st xs).2 ++
            (viewerRun entries (viewerRun entries st xs).1 ys).2) := by
  intro xs
  induction xs with
  | nil =>
    intro ys st
    simp [viewerRun]
  | cons x xs2 ih =>
    intro ys st
    rw [List.cons_append, viewerRun, viewerRun, ih ys (viewerTick entries st x).1]
    simp [List.append_assoc]

theorem withinWindow_cond {entries : List Oid} {st : ViewerState} {t : Tick}
    {ts : List Tick} (hw : withinWindow entries st (t :: ts) = true) :
    (entries[st.selected_index]? = st.last_selected_oid →
      t.now < st.last_selection_change + DEBOUNCE_MS) ∧
    withinWindow entries (viewerTick entries st t).1 ts = true := by
  rw [withinWindow, Bool.and_eq_true] at hw
  refine ⟨?_, hw.2⟩
  intro heq
  have h1 := hw.1
  rw [Bool.or_eq_true] at h1
  rcases h1 with h1 | h1
  · exact absurd heq (by simpa using h1)
  · simpa using h1

theorem viewerRun_no_fetch_within (entries : List Oid) :
    ∀ (ts : List Tick) (st : ViewerState),
      withinWindow entries st ts = true → (viewerRun entries st ts).2 = [] := by
  intro ts
  induction ts with
  | nil => intro st _; rfl
  | cons t ts2 ih =>
    intro st hw
    obtain ⟨hcond, hw2⟩ := withinWindow_cond hw
    rw [viewerRun, (viewerTick_within entries st t hcond).1]
    simp only [Option.toList, List.nil_append]
    exact ih _ hw2

theorem viewerRun_selected_lt (entries : List Oid) (h : 0 < entries.length) :
    ∀ (ts : List Tick) (st : ViewerState), st.selected_index < entries.length →
      (viewerRun entries st ts).1.selected_index < entries.length := by
  intro ts
  induction ts with
  | nil => intro st hidx; exact hidx
  | cons t ts2 ih =>
    intro st hidx
    rw [viewerRun]
    exact ih _ (viewerTick_selected_lt entries st t h hidx)

theorem viewerRun_pending_within (entries : List Oid) :
    ∀ (ts : List Tick) (st : ViewerState),
      withinWindow entries st ts = true →
      (st.pending_fetch = true ∨ entries[st.selected_index]? ≠ st.last_selected_oid) →
      ts ≠ [] →
      (viewerRun entries st ts).1.pending_fetch = true := by
  intro ts
  induction ts with
  | nil => intro st _ _ hne; exact absurd rfl hne
  | cons t ts2 ih =>
    intro st hw hst _
    obtain ⟨hcond, hw2⟩ := withinWindow_cond hw
    have hpend := viewerTick_pending_within entries st t hcond hst
    rw [viewerRun]
    cases hts2 : ts2 with
    | nil =>
      rw [viewerRun]
      exact hpend
    | cons u us =>
      rw [← hts2]
      exact ih _ (hts2 ▸ hw2) (Or.inl hpend) (by rw [hts2]; exact List.cons_ne_nil u us)

theorem viewerRun_quiet_wait (entries : List Oid) :
    ∀ (ws : List Tick) (st : ViewerState),
      (∀ t ∈ ws, t.key = none ∧ t.now < st.last_selection_change + DEBOUNCE_MS) →
      st.last_selected_oid = entries[st.selected_index]? →
      viewerRun entries st ws = (st, []) := by
  intro ws
  induction ws with
  | nil => intro st _ _; rfl
  | cons w ws2 ih =>
    intro st hws hsync
    obtain ⟨hk, hlt⟩ := hws w (List.mem_cons_self w ws2)
    rw [viewerRun, viewerTick_quiet_wait entries st w hk hsync hlt]
    rw [ih st (fun t ht => hws t (List.mem_cons_of_mem w ht)) hsync]
    rfl

theorem viewerRun_quiet_done (entries : List Oid) :
    ∀ (ws : List Tick) (st : ViewerState),
      (∀ t ∈ ws, t.key = none) →
      st.last_selected_oid = entries[st.selected_index]? →
      st.pending_fetch = false →
      viewerRun entries st ws = (st, []) := by
  intro ws
  induction ws with
  | nil => intro st _ _ _; rfl
  | cons w ws2 ih =>
    intro st hws hsync hp
    rw [viewerRun, viewerTick_quiet_done entries st w (hws w (List.mem_cons_self w ws2))
      hsync hp]
    rw [ih st (fun t ht => hws t (List.mem_cons_of_mem w ht)) hsync hp]
    rfl

/-! ## C8: at most one debounced detail fetch per stable selection -/

/-- C8.  Starting the viewer loop on a non-empty log: a trace of rapid
navigation, every tick of which happens within the quiescence window of the
most recent selection change (`rapid` plus a first quiet tick `t1`),
followed by quiet ticks still inside the window, then the first tick `tf` at
which the window has elapsed, then any further quiet ticks, performs exactly
ONE detail fetch in total — at `tf`, for the finally selected entry only —
and zero fetches happen anywhere before the window elapses. -/
theorem debounce_single_fetch (entries : List Oid) (startTime : Nat)
    (rapid waits after : List Tick) (t1 tf : Tick)
    (hne : entries ≠ [])
    (hk1 : t1.key = none)
    (hw : withinWindow entries (initViewerState startTime) (rapid ++ [t1]) = true)
    (hwaits : ∀ t ∈ waits, t.key = none ∧
      t.now < (viewerRun entries (initViewerState startTime)
        (rapid ++ [t1])).1.last_selection_change + DEBOUNCE_MS)
    (hkf : tf.key = none)
    (htf : DEBOUNCE_MS ≤ tf.now - (viewerRun entries (initViewerState startTime)
      (rapid ++ [t1])).1.last_selection_change)
    (hafter : ∀ t ∈ after, t.key = none) :
    ∃ o, (viewerRun entries (initViewerState startTime)
        (rapid ++ t1 :: (waits ++ tf :: after))).2 = [o] ∧
      entries[(viewerRun entries (initViewerState startTime)
        (rapid ++ [t1])).1.selected_index]? = some o ∧
      (viewerRun entries (initViewerState startTime) (rapid ++ t1 :: waits)).2 = [] := by
  have hlen : 0 < entries.length := List.length_pos.mpr hne
  set st0 := initViewerState startTime with hst0
  set S := (viewerRun entries st0 (rapid ++ [t1])).1 with hS
  -- the rapid phase performs no fetch
  have hfr : (viewerRun entries st0 (rapid ++ [t1])).2 = [] :=
    viewerRun_no_fetch_within entries (rapid ++ [t1]) st0 hw
  -- the selection index stays in bounds
  have hsel_lt : S.selected_index < entries.length := by
    rw [hS]
    exact viewerRun_selected_lt entries hlen (rapid ++ [t1]) st0 hlen
  -- after the rapid phase a fetch is still pending
  have hchg0 : entries[st0.selected_index]? ≠ st0.last_selected_oid := by
    rw [hst0]
    cases entries with
    | nil => exact absurd rfl hne
    | cons e es =>
      simp [initViewerState]
  have hpend : S.pending_fetch = true := by
    rw [hS]
    exact viewerRun_pending_within entries (rapid ++ [t1]) st0 hw (Or.inr hchg0)
      (by simp)
  -- after the quiet tick t1 the state is synced with the final selection
  have hsync : S.last_selected_oid = entries[S.selected_index]? := by
    have happ := viewerRun_append entries rapid [t1] st0
    have hrun1 : (viewerRun entries (viewerRun entries st0 rapid).1 [t1]).1 =
        (viewerTick entries (viewerRun entries st0 rapid).1 t1).1 := rfl
    rw [hS, happ, hrun1]
    exact (viewerTick_synced entries (viewerRun entries st0 rapid).1 t1 hk1).1
  obtain ⟨o, ho⟩ : ∃ o, entries[S.selected_index]? = some o :=
    ⟨entries[S.selected_index], List.getElem?_eq_getElem hsel_lt⟩
  refine ⟨o, ?_, ho, ?_⟩
  · have hsplit : rapid ++ t1 :: (waits ++ tf :: after) =
        (rapid ++ [t1]) ++ (waits ++ tf :: after) := by
      simp
    rw [hsplit, viewerRun_append entries (rapid ++ [t1]) (waits ++ tf :: after) st0,
      hfr, List.nil_append, ← hS]
    rw [viewerRun_append entries waits (tf :: after) S,
      viewerRun_quiet_wait entries waits S (fun t ht => hwaits t ht) hsync]
    rw [viewerRun]
    rw [viewerTick_quiet_fire entries S tf hkf hsync hpend htf]
    have hsync2 : ({ S with pending_fetch := false } :
        ViewerState).last_selected_oid =
        entries[({ S with pending_fetch := false } :
          ViewerState).selected_index]? := hsync
    rw [viewerRun_quiet_done entries after { S with pending_fetch := false }
      hafter hsync2 rfl]
    rw [ho]
    rfl
  · have hsplit2 : rapid ++ t1 :: waits = (rapid ++ [t1]) ++ waits := by simp
    rw [hsplit2, viewerRun_append entries (rapid ++ [t1]) waits st0, hfr,
      List.nil_append, ← hS,
      viewerRun_quiet_wait entries waits S (fun t ht => hwaits t ht) hsync]

/-- Witness for C8 on the concrete five-event simulation trace. -/
theorem debounce_single_fetch_witness :
    ∃ o, (viewerRun demoEntries (initViewerState 0)
        (demoRapid ++ demoT1 :: (demoWaits ++ demoTf :: demoAfter))).2 = [o] ∧
      demoEntries[(viewerRun demoEntries (initViewerState 0)
        (demoRapid ++ [demoT1])).1.selected_index]? = some o ∧
      (viewerRun demoEntries (initViewerState 0)
        (demoRapid ++ demoT1 :: demoWaits)).2 = [] :=
  debounce_single_fetch demoEntries 0 demoRapid demoWaits demoAfter demoT1 demoTf
    (by decide) rfl (by decide) (by decide) rfl (by decide) (by decide)

end Gx
